import Mathlib

/-!
Shallow embedding of src/algo/rrt_base.py: the RRT* planner base class with
its grid hash index, APF-biased local sampler, configuration check and JSON
checkpointing.  Coordinates are embedded as rationals; every comparison the
source makes between a Euclidean distance and a threshold is embedded as the
equivalent comparison of the squared distance against the squared threshold.
Heading normalisation (`_validate_heading`) is embedded over the reals since
it is about the constant pi.  Parts of the repository that are not under
src/ (algo/utils.py with the PointHeading class, and the cost-model mixins
rrt_shortest / rrt_pointturn / rrt_unicycle) are modelled from the spec
where noted in the doc comments.
-/

namespace RRT

/-- A pose.  Modelled from the spec: utils.PointHeading lives in
algo/utils.py which is not under src/.  Per the spec a pose carries
(x, y, z, heading) and two poses are equal iff their canonical string keys
agree, with pose-to-key round-tripping being the identity; poses are
therefore embedded as their component tuples with structural equality
standing for key equality. -/
structure Pose where
  x : ℚ
  y : ℚ
  z : ℚ
  heading : ℚ
deriving DecidableEq

/-- Squared 2D Euclidean distance.  The source method `_euclid_2D` returns
the square root of this value; comparisons of `_euclid_2D` against a
nonnegative threshold are embedded as squared comparisons. -/
def euclidSq (p1 p2 : Pose) : ℚ :=
  (p1.x - p2.x) ^ 2 + (p1.y - p2.y) ^ 2

/-! ## Configuration check (RRTStarBase.__init__, lines 57-60) -/

/-- The assert at the head of `RRTStarBase.__init__`: construction succeeds
iff `near_threshold >= max_distance`, otherwise it fails with the assertion
message.  The source message is built from two adjacent f-strings that
concatenate without a space, yielding "orequal". -/
def initConfigCheck (near_threshold max_distance : ℚ) : Except String Unit :=
  if near_threshold ≥ max_distance then Except.ok ()
  else
    Except.error ("near_threshold (" ++ toString near_threshold ++
      ") must be greater than orequal to max_distance (" ++
      toString max_distance ++ ")")

/-- Claim C4: constructing a planner fails, with an error describing both
values, exactly when near_threshold < max_distance; construction with
near_threshold = max_distance succeeds (equality is admitted), and
construction with near_threshold > max_distance succeeds. -/
theorem init_config_check_spec (nt md : ℚ) :
    (nt < md → initConfigCheck nt md =
      Except.error ("near_threshold (" ++ toString nt ++
        ") must be greater than orequal to max_distance (" ++
        toString md ++ ")")) ∧
    (md ≤ nt → initConfigCheck nt md = Except.ok ()) := by
  constructor
  · intro h
    unfold initConfigCheck
    rw [if_neg (not_le.mpr h)]
  · intro h
    unfold initConfigCheck
    rw [if_pos h]

/-- Evaluation of the configuration check at concrete values: a violating
pair fails, an equal pair succeeds, and a strictly larger near_threshold
succeeds. -/
theorem init_config_check_spec_witness :
    initConfigCheck 1 2 =
      Except.error ("near_threshold (" ++ toString (1 : ℚ) ++
        ") must be greater than orequal to max_distance (" ++
        toString (2 : ℚ) ++ ")") ∧
    initConfigCheck 1 1 = Except.ok () ∧
    initConfigCheck 2 1 = Except.ok () :=
  ⟨(init_config_check_spec 1 2).1 (by norm_num),
   (init_config_check_spec 1 1).2 (by norm_num),
   (init_config_check_spec 2 1).2 (by norm_num)⟩

/-! ## Heading normalisation (`_validate_heading`, lines 112-118) -/

/-- `RRTStarBase._validate_heading`: a single conditional wrap by 2*pi. -/
noncomputable def validate_heading (heading : ℝ) : ℝ :=
  if heading > Real.pi then heading - Real.pi * 2
  else if heading < -Real.pi then heading + Real.pi * 2
  else heading

/-- Claim C9 fails as stated: `_validate_heading` does not return a value in
the half-open interval (-pi, pi] for every real input.  At -pi the function
returns -pi, which is outside the interval, and at 5*pi the single wrap
returns 3*pi, also outside the interval. -/
theorem validate_heading_counterexample :
    validate_heading (-Real.pi) ∉ Set.Ioc (-Real.pi) Real.pi ∧
    validate_heading (5 * Real.pi) ∉ Set.Ioc (-Real.pi) Real.pi := by
  have hpi := Real.pi_pos
  constructor
  · have h1 : validate_heading (-Real.pi) = -Real.pi := by
      unfold validate_heading
      rw [if_neg (by linarith), if_neg (by linarith)]
    rw [h1, Set.mem_Ioc]
    intro h
    exact lt_irrefl _ h.1
  · have h2 : validate_heading (5 * Real.pi) = 3 * Real.pi := by
      unfold validate_heading
      rw [if_pos (by linarith)]
      ring
    rw [h2, Set.mem_Ioc]
    intro h
    linarith [h.2]

/-- Claim C9, amended: for headings within one extra turn of the principal
range, that is h in [-3*pi, 3*pi], `_validate_heading h` lies in the closed
interval [-pi, pi] and differs from h by an integer multiple of 2*pi.  (The
single wrap cannot reach the half-open interval (-pi, pi] from -pi or from
inputs beyond 3*pi in absolute value.) -/
theorem validate_heading_amended (h : ℝ)
    (hlo : -(3 * Real.pi) ≤ h) (hhi : h ≤ 3 * Real.pi) :
    validate_heading h ∈ Set.Icc (-Real.pi) Real.pi ∧
    ∃ k : ℤ, validate_heading h = h + 2 * Real.pi * k := by
  have hpi := Real.pi_pos
  unfold validate_heading
  by_cases h1 : h > Real.pi
  · rw [if_pos h1]
    refine ⟨⟨by linarith, by linarith⟩, ⟨-1, by push_cast; ring⟩⟩
  · rw [if_neg h1]
    by_cases h2 : h < -Real.pi
    · rw [if_pos h2]
      refine ⟨⟨by linarith, by linarith⟩, ⟨1, by push_cast; ring⟩⟩
    · rw [if_neg h2]
      refine ⟨⟨by linarith, by linarith⟩, ⟨0, by push_cast; ring⟩⟩

/-- Evaluation of the amended heading claim at the concrete input 0. -/
theorem validate_heading_amended_witness :
    validate_heading 0 ∈ Set.Icc (-Real.pi) Real.pi ∧
    ∃ k : ℤ, validate_heading 0 = 0 + 2 * Real.pi * k :=
  validate_heading_amended 0 (by nlinarith [Real.pi_pos])
    (by nlinarith [Real.pi_pos])

/-! ## Raster navigability (`RRTStarPNG._is_navigable`, lines 826-833) -/

/-- A rectangular byte image, as held in `RRTStarPNG._map`. -/
structure NpMat where
  height : ℕ
  width : ℕ
  entry : ℕ → ℕ → ℕ

/-- Two-index numpy access `m[py, px]`: raises IndexError exactly when an
index falls outside [-n, n) for the corresponding axis length n, and wraps
negative in-range indices around. -/
def npGet (m : NpMat) (py px : ℤ) : Except Unit ℕ :=
  if py < -(m.height : ℤ) ∨ (m.height : ℤ) ≤ py then Except.error ()
  else if px < -(m.width : ℤ) ∨ (m.width : ℤ) ≤ px then Except.error ()
  else
    Except.ok (m.entry (if py < 0 then py + m.height else py).toNat
      (if px < 0 then px + m.width else px).toNat)

/-- Python `int(...)` applied to a quotient: truncation toward zero. -/
def intTrunc (q : ℚ) : ℤ := if q < 0 then ⌈q⌉ else ⌊q⌋

/-- The PNG adapter scaling lambda `int(x / meters_per_pixel)`. -/
def scale_coord (mpp x : ℚ) : ℤ := intTrunc (x / mpp)

/-- `RRTStarPNG._is_navigable`: scales both coordinates with the x-scaling
lambda (the source uses `_scale_x` for y as well; the two lambdas are the
same function), reads the map, and catches IndexError as False. -/
def png_is_navigable (m : NpMat) (mpp : ℚ) (pt : Pose) : Bool :=
  match npGet m (scale_coord mpp pt.y) (scale_coord mpp pt.x) with
  | Except.ok v => v == 255
  | Except.error _ => false

/-- Claim C10: the raster navigability test is total - it is a Bool-valued
function on all poses (the IndexError branch is caught in its definition),
and whenever a scaled pixel index lies at or beyond the upper bound of the
map array the result is False. -/
theorem png_is_navigable_total (m : NpMat) (mpp : ℚ) (pt : Pose)
    (hout : (m.height : ℤ) ≤ scale_coord mpp pt.y ∨
      (m.width : ℤ) ≤ scale_coord mpp pt.x) :
    png_is_navigable m mpp pt = false := by
  unfold png_is_navigable npGet
  rcases hout with h | h
  · rw [if_pos (Or.inr h)]
  · by_cases h1 : scale_coord mpp pt.y < -(m.height : ℤ) ∨
        (m.height : ℤ) ≤ scale_coord mpp pt.y
    · rw [if_pos h1]
    · rw [if_neg h1, if_pos (Or.inr h)]

/-- Evaluation of the raster navigability claim on a concrete 2x2 all-free
map: the pose at (5, 0) scales past the end of the array and yields False. -/
theorem png_is_navigable_total_witness :
    png_is_navigable ⟨2, 2, fun _ _ => 255⟩ 1 ⟨5, 0, 0, 0⟩ = false :=
  png_is_navigable_total ⟨2, 2, fun _ _ => 255⟩ 1 ⟨5, 0, 0, 0⟩
    (Or.inr (by norm_num [scale_coord, intTrunc]))

/-! ## Grid hash (`add_to_grid_hash` lines 249-252, `_get_near_pts` lines 120-144) -/

/-- `int((coord - offset) // near_threshold)`: Python float floor-division
followed by int() of an already-floored value, i.e. the floor of the
quotient. -/
def cellIndex (offset R x : ℚ) : ℤ := ⌊(x - offset) / R⌋

/-- The bucket a pose lives in: `add_to_grid_hash` appends each pose to the
bucket of its own cell, so the grid hash is determined by the insertion-order
list of stored poses. -/
def cellOf (xmin ymin R : ℚ) (q : Pose) : ℤ × ℤ :=
  (cellIndex xmin R q.x, cellIndex ymin R q.y)

/-- The contents of one grid-hash bucket, given the insertion-order list of
all stored poses: exactly the stored poses whose cell is `c`, in insertion
order (the defaultdict-of-lists semantics of `add_to_grid_hash`). -/
def bucket (xmin ymin R : ℚ) (pts : List Pose) (c : ℤ × ℤ) : List Pose :=
  pts.filter (fun q => decide (cellOf xmin ymin R q = c))

/-- Python float modulo `a % R` for positive R: `a - R * floor(a / R)`. -/
def qmod (a R : ℚ) : ℚ := a - R * (⌊a / R⌋ : ℤ)

/-- `RRTStarBase._get_near_pts`: the bucket of the query cell plus the three
adjacent buckets on the side of the query point closer to a cell boundary
(`left` / `down` half-cell rule), concatenated in source order. -/
def get_near_pts (xmin ymin R : ℚ) (pts : List Pose) (pt : Pose) : List Pose :=
  bucket xmin ymin R pts (cellIndex xmin R pt.x, cellIndex ymin R pt.y) ++
  (if qmod (pt.x - xmin) R < R / 2 then
    bucket xmin ymin R pts (cellIndex xmin R pt.x - 1, cellIndex ymin R pt.y) ++
    (if qmod (pt.y - ymin) R < R / 2 then
      bucket xmin ymin R pts (cellIndex xmin R pt.x - 1, cellIndex ymin R pt.y - 1) ++
      bucket xmin ymin R pts (cellIndex xmin R pt.x, cellIndex ymin R pt.y - 1)
    else
      bucket xmin ymin R pts (cellIndex xmin R pt.x - 1, cellIndex ymin R pt.y + 1) ++
      bucket xmin ymin R pts (cellIndex xmin R pt.x, cellIndex ymin R pt.y + 1))
  else
    bucket xmin ymin R pts (cellIndex xmin R pt.x + 1, cellIndex ymin R pt.y) ++
    (if qmod (pt.y - ymin) R < R / 2 then
      bucket xmin ymin R pts (cellIndex xmin R pt.x + 1, cellIndex ymin R pt.y - 1) ++
      bucket xmin ymin R pts (cellIndex xmin R pt.x, cellIndex ymin R pt.y - 1)
    else
      bucket xmin ymin R pts (cellIndex xmin R pt.x + 1, cellIndex ymin R pt.y + 1) ++
      bucket xmin ymin R pts (cellIndex xmin R pt.x, cellIndex ymin R pt.y + 1)))

lemma mem_bucket {xmin ymin R : ℚ} {pts : List Pose} {c : ℤ × ℤ} {q : Pose} :
    q ∈ bucket xmin ymin R pts c ↔ q ∈ pts ∧ cellOf xmin ymin R q = c := by
  simp [bucket, List.mem_filter]

lemma cellIndex_ge (offset R b : ℚ) (hR : 0 < R) (n : ℤ)
    (h : (n : ℚ) * R ≤ b - offset) : n ≤ cellIndex offset R b := by
  unfold cellIndex
  rw [Int.le_floor, le_div_iff₀ hR]
  exact h

lemma cellIndex_lt (offset R b : ℚ) (hR : 0 < R) (n : ℤ)
    (h : b - offset < (n : ℚ) * R) : cellIndex offset R b < n := by
  unfold cellIndex
  rw [Int.floor_lt, div_lt_iff₀ hR]
  exact h

lemma cellIndex_mul_le (offset R a : ℚ) (hR : 0 < R) :
    (cellIndex offset R a : ℚ) * R ≤ a - offset := by
  have := Int.floor_le ((a - offset) / R)
  calc (cellIndex offset R a : ℚ) * R ≤ ((a - offset) / R) * R := by
        exact mul_le_mul_of_nonneg_right this (le_of_lt hR)
    _ = a - offset := div_mul_cancel₀ _ (ne_of_gt hR)

lemma lt_cellIndex_succ_mul (offset R a : ℚ) (hR : 0 < R) :
    a - offset < ((cellIndex offset R a : ℚ) + 1) * R := by
  have := Int.lt_floor_add_one ((a - offset) / R)
  have h2 : a - offset < (((⌊(a - offset) / R⌋ : ℚ)) + 1) * R := by
    rw [← div_lt_iff₀ hR]
    exact this
  exact h2

lemma qmod_eq_sub_cell (offset R a : ℚ) :
    qmod (a - offset) R = (a - offset) - R * (cellIndex offset R a : ℚ) := rfl

/-- One-dimensional half-cell coverage, near side: when the query sits in
the lower half of its cell, any coordinate within R/2 falls in the query
cell or the one below. -/
lemma cell_shift_left (offset R a b : ℚ) (hR : 0 < R) (hd : |b - a| ≤ R / 2)
    (hfrac : qmod (a - offset) R < R / 2) :
    cellIndex offset R b = cellIndex offset R a - 1 ∨
    cellIndex offset R b = cellIndex offset R a := by
  have hal := cellIndex_mul_le offset R a hR
  have habs := abs_le.mp hd
  rw [qmod_eq_sub_cell] at hfrac
  have h1 : ((cellIndex offset R a - 1 : ℤ) : ℚ) * R ≤ b - offset := by
    push_cast
    nlinarith [habs.1]
  have h2 : b - offset < ((cellIndex offset R a + 1 : ℤ) : ℚ) * R := by
    push_cast
    nlinarith [habs.2]
  have hge := cellIndex_ge offset R b hR _ h1
  have hlt := cellIndex_lt offset R b hR _ h2
  omega

/-- One-dimensional half-cell coverage, far side: when the query sits in the
upper half of its cell, any coordinate within R/2 falls in the query cell or
the one above. -/
lemma cell_shift_right (offset R a b : ℚ) (hR : 0 < R) (hd : |b - a| ≤ R / 2)
    (hfrac : ¬ qmod (a - offset) R < R / 2) :
    cellIndex offset R b = cellIndex offset R a ∨
    cellIndex offset R b = cellIndex offset R a + 1 := by
  have hau := lt_cellIndex_succ_mul offset R a hR
  have habs := abs_le.mp hd
  rw [qmod_eq_sub_cell] at hfrac
  push_neg at hfrac
  have h1 : ((cellIndex offset R a : ℤ) : ℚ) * R ≤ b - offset := by
    nlinarith [habs.1]
  have h2 : b - offset < ((cellIndex offset R a + 2 : ℤ) : ℚ) * R := by
    push_cast
    nlinarith [habs.2]
  have hge := cellIndex_ge offset R b hR _ h1
  have hlt := cellIndex_lt offset R b hR _ h2
  omega

def pC2 : Pose := ⟨2/5, 2/5, 0, 0⟩

def qC2 : Pose := ⟨13/10, 2/5, 0, 0⟩

/-- Claim C2 fails as stated: with cell size R = 1 and offsets 0, the stored
pose (1.3, 0.4) is within Euclidean distance 1 of the query (0.4, 0.4)
(squared distance 0.81 <= 1), yet the query sits in the left half of cell
(0, 0), so the 4-cell block looks only at columns -1 and 0 and misses the
stored pose in column 1: `_get_near_pts` does not return it. -/
theorem near_pts_counterexample :
    euclidSq pC2 qC2 ≤ 1 ^ 2 ∧ qC2 ∈ [qC2] ∧
    qC2 ∉ get_near_pts 0 0 1 [qC2] pC2 := by
  refine ⟨by norm_num [euclidSq, pC2, qC2], by simp, ?_⟩
  norm_num [get_near_pts, bucket, cellOf, cellIndex, qmod, pC2, qC2, List.filter]

/-- Claim C2, amended: the 4-cell block chosen by the left/down half-cell
rule covers every stored pose within distance R/2 of the query (not R): for
every query pose p and stored pose q with euclid_2D(p, q) <= R/2, q is in
the list returned by `_get_near_pts p`. -/
theorem near_pts_half_radius (xmin ymin R : ℚ) (pts : List Pose) (p q : Pose)
    (hR : 0 < R) (hq : q ∈ pts) (hd : euclidSq p q ≤ (R / 2) ^ 2) :
    q ∈ get_near_pts xmin ymin R pts p := by
  have hR2 : 0 ≤ R / 2 := by linarith
  unfold euclidSq at hd
  have hdx : |q.x - p.x| ≤ R / 2 := by
    rw [abs_le]
    constructor
    · nlinarith [sq_nonneg (q.x - p.x + R / 2), sq_nonneg (q.y - p.y)]
    · nlinarith [sq_nonneg (q.x - p.x - R / 2), sq_nonneg (q.y - p.y)]
  have hdy : |q.y - p.y| ≤ R / 2 := by
    rw [abs_le]
    constructor
    · nlinarith [sq_nonneg (q.y - p.y + R / 2), sq_nonneg (q.x - p.x)]
    · nlinarith [sq_nonneg (q.y - p.y - R / 2), sq_nonneg (q.x - p.x)]
  unfold get_near_pts
  by_cases hleft : qmod (p.x - xmin) R < R / 2
  · have hx := cell_shift_left xmin R p.x q.x hR hdx hleft
    rw [if_pos hleft]
    by_cases hdown : qmod (p.y - ymin) R < R / 2
    · have hy := cell_shift_left ymin R p.y q.y hR hdy hdown
      rw [if_pos hdown]
      simp only [List.mem_append, mem_bucket, cellOf, Prod.mk.injEq]
      rcases hx with hx | hx <;> rcases hy with hy | hy <;> simp [hq, hx, hy]
    · have hy := cell_shift_right ymin R p.y q.y hR hdy hdown
      rw [if_neg hdown]
      simp only [List.mem_append, mem_bucket, cellOf, Prod.mk.injEq]
      rcases hx with hx | hx <;> rcases hy with hy | hy <;> simp [hq, hx, hy]
  · have hx := cell_shift_right xmin R p.x q.x hR hdx hleft
    rw [if_neg hleft]
    by_cases hdown : qmod (p.y - ymin) R < R / 2
    · have hy := cell_shift_left ymin R p.y q.y hR hdy hdown
      rw [if_pos hdown]
      simp only [List.mem_append, mem_bucket, cellOf, Prod.mk.injEq]
      rcases hx with hx | hx <;> rcases hy with hy | hy <;> simp [hq, hx, hy]
    · have hy := cell_shift_right ymin R p.y q.y hR hdy hdown
      rw [if_neg hdown]
      simp only [List.mem_append, mem_bucket, cellOf, Prod.mk.injEq]
      rcases hx with hx | hx <;> rcases hy with hy | hy <;> simp [hq, hx, hy]

def pW2 : Pose := ⟨0, 0, 0, 0⟩

def qW2 : Pose := ⟨1/10, 0, 0, 0⟩

/-- Evaluation of the amended near-points claim on a concrete instance. -/
theorem near_pts_half_radius_witness :
    (0 : ℚ) < 1 ∧ qW2 ∈ [qW2] ∧ euclidSq pW2 qW2 ≤ ((1 : ℚ) / 2) ^ 2 ∧
    qW2 ∈ get_near_pts 0 0 1 [qW2] pW2 :=
  ⟨by norm_num, by simp, by norm_num [euclidSq, pW2, qW2],
   near_pts_half_radius 0 0 1 [qW2] pW2 qW2 (by norm_num) (by simp)
     (by norm_num [euclidSq, pW2, qW2])⟩

/-! ## APF local sampler (`_sample_point_by_local_map`, lines 897-1046) -/

/-- Input of `RRTStarPNG._sample_point_by_local_map`.  The pre-mask total
potential `U` (steps 1-6 of the algorithm: the two Euclidean distance
transforms, the repulsive fields and the attractive field, summed) is
modelled as a parameter because its computation involves square roots; the
masking, all-infinite check and argmin selection of lines 1001-1046, which
claim C6 is about, are embedded exactly over an arbitrary pre-mask grid.
The value +inf is the top element of `WithTop`. -/
structure ApfInput where
  n : ℕ
  cellSize : ℚ
  center : ℚ × ℚ
  maxDistance : ℚ
  U : ℕ → ℕ → WithTop ℚ

/-- `map_origin`: the window center minus `(local_map_size // 2)` cells in
each axis (floor division on the size). -/
def apfOrigin (A : ApfInput) : ℚ × ℚ :=
  (A.center.1 - (A.n / 2 : ℕ) * A.cellSize,
   A.center.2 - (A.n / 2 : ℕ) * A.cellSize)

/-- `x_coords[j] = map_origin[0] + j * cell_size`. -/
def apfX (A : ApfInput) (j : ℕ) : ℚ := (apfOrigin A).1 + j * A.cellSize

/-- `y_coords[i] = map_origin[1] + i * cell_size`. -/
def apfY (A : ApfInput) (i : ℕ) : ℚ := (apfOrigin A).2 + i * A.cellSize

/-- Squared distance from cell (i, j) to the window center; the source
compares the square root of this against `max_distance`. -/
def distSqToCenter (A : ApfInput) (i j : ℕ) : ℚ :=
  (apfX A j - A.center.1) ^ 2 + (apfY A i - A.center.2) ^ 2

/-- `U_total[dist_to_center > max_distance] = np.inf`: the potential after
the mask step (squared-distance embedding of the strict comparison). -/
def maskedU (A : ApfInput) (i j : ℕ) : WithTop ℚ :=
  if A.maxDistance ^ 2 < distSqToCenter A i j then ⊤ else A.U i j

/-- All cells of an n-by-n grid in row-major (numpy scan) order. -/
def cellsRM (n : ℕ) : List (ℕ × ℕ) :=
  (List.range n).flatMap (fun i => (List.range n).map (fun j => (i, j)))

/-- `np.all(U_total == np.inf)`. -/
def apfAllInf (A : ApfInput) : Bool :=
  (cellsRM A.n).all fun c => decide (maskedU A c.1 c.2 = ⊤)

/-- `np.min(U_total)`. -/
def apfMinU (A : ApfInput) : WithTop ℚ :=
  ((cellsRM A.n).map fun c => maskedU A c.1 c.2).foldr min ⊤

/-- `np.where(U_total == min)[...][0]`: the first cell in row-major order
whose masked potential equals the minimum. -/
def apfArgmin (A : ApfInput) : Option (ℕ × ℕ) :=
  (cellsRM A.n).find? fun c => decide (maskedU A c.1 c.2 = apfMinU A)

/-- Lines 1009-1046 of `_sample_point_by_local_map`: mask far cells, return
the center when everything is infinite, otherwise return the world position
of the row-major-first argmin cell. -/
def sample_point_by_local_map (A : ApfInput) : ℚ × ℚ :=
  if apfAllInf A then A.center
  else
    match apfArgmin A with
    | some c => (apfX A c.2, apfY A c.1)
    | none => A.center

lemma foldr_min_le {α : Type} [LinearOrder α] (l : List α) (b : α) (x : α)
    (hx : x ∈ l) : l.foldr min b ≤ x := by
  induction l with
  | nil => cases hx
  | cons a as ih =>
    rcases List.mem_cons.mp hx with h | h
    · subst h
      exact min_le_left _ _
    · exact le_trans (min_le_right _ _) (ih h)

lemma foldr_min_mem_or_eq {α : Type} [LinearOrder α] (l : List α) (b : α) :
    l.foldr min b ∈ l ∨ l.foldr min b = b := by
  induction l with
  | nil => exact Or.inr rfl
  | cons a as ih =>
    rcases min_choice a (as.foldr min b) with h | h
    · exact Or.inl (by rw [List.foldr_cons, h]; exact List.mem_cons_self a as)
    · rcases ih with h2 | h2
      · exact Or.inl (by rw [List.foldr_cons, h]; exact List.mem_cons_of_mem a h2)
      · exact Or.inr (by rw [List.foldr_cons, h, h2])

lemma find?_split {α : Type} (p : α → Bool) (l : List α) (a : α)
    (h : l.find? p = some a) :
    ∃ l1 l2, l = l1 ++ a :: l2 ∧ ∀ x ∈ l1, p x = false := by
  induction l with
  | nil => cases h
  | cons y ys ih =>
    by_cases hy : p y
    · rw [List.find?_cons_of_pos _ hy] at h
      have hya : y = a := by injection h
      exact ⟨[], ys, by rw [hya]; rfl, by intro x hx; cases hx⟩
    · rw [List.find?_cons_of_neg _ (by simpa using hy)] at h
      obtain ⟨l1, l2, heq, hall⟩ := ih h
      refine ⟨y :: l1, l2, by rw [heq]; rfl, ?_⟩
      intro x hx
      rcases List.mem_cons.mp hx with h2 | h2
      · subst h2
        simpa using hy
      · exact hall x h2

/-- Claim C6: in the APF sampler, every cell strictly farther than
max_distance from the window center has its total potential set to +inf;
if after that mask every cell is +inf the sampler returns the window center
unchanged; otherwise it returns the world position of a minimum-potential
cell, namely the first such cell in row-major order (every strictly earlier
cell has strictly larger masked potential). -/
theorem apf_sample_spec (A : ApfInput) (hmd : 0 ≤ A.maxDistance) :
    (∀ i j, A.maxDistance ^ 2 < distSqToCenter A i j → maskedU A i j = ⊤) ∧
    (apfAllInf A = true → sample_point_by_local_map A = A.center) ∧
    (apfAllInf A = false →
      ∃ c : ℕ × ℕ, c ∈ cellsRM A.n ∧
        sample_point_by_local_map A = (apfX A c.2, apfY A c.1) ∧
        maskedU A c.1 c.2 ≠ ⊤ ∧
        (∀ d ∈ cellsRM A.n, maskedU A c.1 c.2 ≤ maskedU A d.1 d.2) ∧
        ∃ l1 l2, cellsRM A.n = l1 ++ c :: l2 ∧
          ∀ d ∈ l1, maskedU A c.1 c.2 < maskedU A d.1 d.2) := by
  refine ⟨?_, ?_, ?_⟩
  · intro i j h
    unfold maskedU
    rw [if_pos h]
  · intro h
    unfold sample_point_by_local_map
    rw [h]
    rfl
  · intro hAI
    have hminle : ∀ d ∈ cellsRM A.n, apfMinU A ≤ maskedU A d.1 d.2 := by
      intro d hd
      exact foldr_min_le _ _ _ (List.mem_map_of_mem _ hd)
    obtain ⟨c0, hc0mem, hc0⟩ : ∃ c ∈ cellsRM A.n, ¬ maskedU A c.1 c.2 = ⊤ := by
      unfold apfAllInf at hAI
      rw [List.all_eq_false] at hAI
      obtain ⟨c, hc, hne⟩ := hAI
      exact ⟨c, hc, by simpa using hne⟩
    have hmin_ne_top : apfMinU A ≠ ⊤ := by
      intro htop
      exact hc0 (top_le_iff.mp (htop ▸ hminle c0 hc0mem))
    have hmin_mem : ∃ c ∈ cellsRM A.n, maskedU A c.1 c.2 = apfMinU A := by
      rcases foldr_min_mem_or_eq ((cellsRM A.n).map fun c => maskedU A c.1 c.2) ⊤ with
        h | h
      · obtain ⟨c, hc, hceq⟩ := List.mem_map.mp h
        exact ⟨c, hc, hceq⟩
      · exact absurd h hmin_ne_top
    have hfind : (apfArgmin A).isSome := by
      rw [apfArgmin, List.find?_isSome]
      obtain ⟨c, hc, hceq⟩ := hmin_mem
      exact ⟨c, hc, by simpa using hceq⟩
    obtain ⟨c, hc⟩ := Option.isSome_iff_exists.mp hfind
    have hcmem : c ∈ cellsRM A.n := List.mem_of_find?_eq_some hc
    have hceq : maskedU A c.1 c.2 = apfMinU A := by
      have := List.find?_some hc
      simpa using this
    obtain ⟨l1, l2, hsplit, hall⟩ := find?_split _ _ _ hc
    refine ⟨c, hcmem, ?_, ?_, ?_, l1, l2, hsplit, ?_⟩
    · unfold sample_point_by_local_map
      rw [hAI]
      simp only [Bool.false_eq_true, if_false]
      rw [hc]
    · rw [hceq]
      exact hmin_ne_top
    · intro d hd
      rw [hceq]
      exact hminle d hd
    · intro d hd
      have hdmem : d ∈ cellsRM A.n := by
        rw [hsplit]
        exact List.mem_append_left _ hd
      have hne : maskedU A d.1 d.2 ≠ apfMinU A := by
        have := hall d hd
        intro hcontra
        simp [hcontra] at this
      rw [hceq]
      exact lt_of_le_of_ne (hminle d hdmem) (Ne.symm hne)

def apfExample : ApfInput :=
  ⟨2, 1, (0, 0), 1, fun _ _ => ((5 : ℚ) : WithTop ℚ)⟩

/-- Evaluation of the APF sampler claim on a concrete 2x2 window: the corner
cell at squared distance 2 from the center is masked to +inf, and since not
every cell is masked the sampler returns the world position of the row-major
first minimum cell. -/
theorem apf_sample_spec_witness :
    maskedU apfExample 0 0 = ⊤ ∧
    ∃ c : ℕ × ℕ, c ∈ cellsRM apfExample.n ∧
      sample_point_by_local_map apfExample =
        (apfX apfExample c.2, apfY apfExample c.1) ∧
      maskedU apfExample c.1 c.2 ≠ ⊤ ∧
      (∀ d ∈ cellsRM apfExample.n,
        maskedU apfExample c.1 c.2 ≤ maskedU apfExample d.1 d.2) ∧
      ∃ l1 l2, cellsRM apfExample.n = l1 ++ c :: l2 ∧
        ∀ d ∈ l1, maskedU apfExample c.1 c.2 < maskedU apfExample d.1 d.2 :=
  ⟨(apf_sample_spec apfExample (by norm_num [apfExample])).1 0 0
     (by norm_num [apfExample, distSqToCenter, apfX, apfY, apfOrigin]),
   (apf_sample_spec apfExample (by norm_num [apfExample])).2.2
     (by norm_num [apfAllInf, apfExample, cellsRM, maskedU, distSqToCenter,
       apfX, apfY, apfOrigin, List.all, List.flatMap])⟩

/-! ## Nearest tree point (`_closest_tree_pt`, lines 146-169) -/

/-- Python `range(a, b + 1)` over integers: the list a, a+1, ..., b. -/
def intRange (a b : ℤ) : List ℤ :=
  (List.range (b + 1 - a).toNat).map (fun k : ℕ => a + (k : ℤ))

/-- The cells gathered in the iteration of the while loop with the given
`count`: the initial `[(i, j)]` for count 0, and for positive count the side
cells for `c in range(-count + 1, count)` followed by the four corner cells,
in source order. -/
def ringCells (i j : ℤ) (count : ℕ) : List (ℤ × ℤ) :=
  if count = 0 then [(i, j)]
  else
    (intRange (-(count : ℤ) + 1) ((count : ℤ) - 1)).flatMap
      (fun c => [(i + count, j + c), (i - count, j + c),
                 (i + c, j + count), (i + c, j - count)]) ++
    [(i + count, j + count), (i + count, j - count),
     (i - count, j + count), (i - count, j - count)]

/-- The `neighbors` gathered at one value of `count`: the grid-hash buckets
of the ring cells, concatenated. -/
def neighborsAtRing (xmin ymin R : ℚ) (pts : List Pose) (p : Pose)
    (count : ℕ) : List Pose :=
  (ringCells (cellIndex xmin R p.x) (cellIndex ymin R p.y) count).flatMap
    (fun c => bucket xmin ymin R pts c)

/-- Python `min(l, key=f)`: the first element attaining the minimum key;
`none` exactly on the empty list.  `_closest_tree_pt` uses the key
`_euclid_2D(pt, x)`, embedded as the squared distance (the square root is
strictly monotone, so the minimiser and tie-breaking are unchanged). -/
def argminList {α : Type} (f : α → ℚ) : List α → Option α
  | [] => none
  | a :: as => some (as.foldl (fun b x => if f x < f b then x else b) a)

/-- The while loop of `_closest_tree_pt`, with explicit fuel: gather the
ring at `count`; if nonempty return the minimum-key element, else expand. -/
def closestAux (xmin ymin R : ℚ) (pts : List Pose) (p : Pose) :
    ℕ → ℕ → Option Pose
  | 0, _ => none
  | fuel + 1, count =>
    match argminList (fun q => euclidSq p q)
        (neighborsAtRing xmin ymin R pts p count) with
    | some r => some r
    | none => closestAux xmin ymin R pts p fuel (count + 1)

/-- Chebyshev distance between the query cell and a stored pose's cell: the
ring at this radius contains the stored pose's bucket. -/
def chebRadius (xmin ymin R : ℚ) (p q : Pose) : ℕ :=
  max (cellIndex xmin R q.x - cellIndex xmin R p.x).natAbs
      (cellIndex ymin R q.y - cellIndex ymin R p.y).natAbs

/-- `RRTStarBase._closest_tree_pt`.  The source loop carries no fuel; here
it runs on fuel that the termination theorem proves sufficient whenever at
least one pose is stored. -/
def closest_tree_pt (xmin ymin R : ℚ) (pts : List Pose) (p : Pose) :
    Option Pose :=
  closestAux xmin ymin R pts p
    (1 + (pts.map (chebRadius xmin ymin R p)).foldr max 0) 0

lemma mem_intRange {a b c : ℤ} (h1 : a ≤ c) (h2 : c ≤ b) : c ∈ intRange a b := by
  have hc : c = a + ((c - a).toNat : ℤ) := by omega
  rw [intRange, hc]
  exact List.mem_map_of_mem (fun k : ℕ => a + (k : ℤ))
    (List.mem_range.mpr (show (c - a).toNat < (b + 1 - a).toNat by omega))

lemma mem_ringCells (i j dx dy : ℤ) (k : ℕ)
    (h : max dx.natAbs dy.natAbs = k) : (i + dx, j + dy) ∈ ringCells i j k := by
  rcases Nat.eq_zero_or_pos k with hk | hk
  · subst hk
    have hdx : dx = 0 := by omega
    have hdy : dy = 0 := by omega
    simp [ringCells, hdx, hdy]
  · rw [ringCells, if_neg (by omega)]
    rw [List.mem_append]
    by_cases hx : dx.natAbs = k
    · by_cases hy : dy.natAbs = k
      · right
        have hdx : dx = (k : ℤ) ∨ dx = -(k : ℤ) := by omega
        have hdy : dy = (k : ℤ) ∨ dy = -(k : ℤ) := by omega
        rcases hdx with hdx | hdx <;> rcases hdy with hdy | hdy <;>
          simp [hdx, hdy, sub_eq_add_neg]
      · left
        rw [List.mem_flatMap]
        refine ⟨dy, mem_intRange (by omega) (by omega), ?_⟩
        have hdx : dx = (k : ℤ) ∨ dx = -(k : ℤ) := by omega
        rcases hdx with hdx | hdx <;> simp [hdx, sub_eq_add_neg]
    · have hy : dy.natAbs = k := by omega
      left
      rw [List.mem_flatMap]
      refine ⟨dx, mem_intRange (by omega) (by omega), ?_⟩
      have hdy : dy = (k : ℤ) ∨ dy = -(k : ℤ) := by omega
      rcases hdy with hdy | hdy <;> simp [hdy, sub_eq_add_neg]

lemma neighborsAtRing_subset {xmin ymin R : ℚ} {pts : List Pose} {p q : Pose}
    {count : ℕ} (h : q ∈ neighborsAtRing xmin ymin R pts p count) : q ∈ pts := by
  rw [neighborsAtRing, List.mem_flatMap] at h
  obtain ⟨c, _, hc⟩ := h
  exact (mem_bucket.mp hc).1

lemma mem_neighborsAtRing_cheb (xmin ymin R : ℚ) (pts : List Pose)
    (p q : Pose) (hq : q ∈ pts) :
    q ∈ neighborsAtRing xmin ymin R pts p (chebRadius xmin ymin R p q) := by
  rw [neighborsAtRing, List.mem_flatMap]
  refine ⟨(cellIndex xmin R q.x, cellIndex ymin R q.y), ?_, ?_⟩
  · have := mem_ringCells (cellIndex xmin R p.x) (cellIndex ymin R p.y)
      (cellIndex xmin R q.x - cellIndex xmin R p.x)
      (cellIndex ymin R q.y - cellIndex ymin R p.y)
      (chebRadius xmin ymin R p q) rfl
    simpa using this
  · exact mem_bucket.mpr ⟨hq, rfl⟩

lemma argminList_eq_none {α : Type} (f : α → ℚ) (l : List α) :
    argminList f l = none ↔ l = [] := by
  cases l <;> simp [argminList]

lemma argminList_foldl_aux {α : Type} (f : α → ℚ) :
    ∀ (as : List α) (a : α),
      (as.foldl (fun b x => if f x < f b then x else b) a) ∈ a :: as ∧
      f (as.foldl (fun b x => if f x < f b then x else b) a) ≤ f a ∧
      ∀ x ∈ as, f (as.foldl (fun b x => if f x < f b then x else b) a) ≤ f x := by
  intro as
  induction as with
  | nil =>
    intro a
    refine ⟨List.mem_cons_self a [], le_refl _, ?_⟩
    intro x hx
    cases hx
  | cons y ys ih =>
    intro a
    obtain ⟨hmem, hlea, hall⟩ := ih (if f y < f a then y else a)
    have hstep_le_a : f (if f y < f a then y else a) ≤ f a := by
      by_cases h : f y < f a
      · rw [if_pos h]; exact le_of_lt h
      · rw [if_neg h]
    have hstep_le_y : f (if f y < f a then y else a) ≤ f y := by
      by_cases h : f y < f a
      · rw [if_pos h]
      · rw [if_neg h]; exact le_of_not_lt h
    have hfold : (y :: ys).foldl (fun b x => if f x < f b then x else b) a =
        ys.foldl (fun b x => if f x < f b then x else b)
          (if f y < f a then y else a) := rfl
    rw [hfold]
    refine ⟨?_, le_trans hlea hstep_le_a, ?_⟩
    · rcases List.mem_cons.mp hmem with h | h
      · rw [h]
        by_cases hc : f y < f a
        · rw [if_pos hc]
          exact List.mem_cons_of_mem _ (List.mem_cons_self _ _)
        · rw [if_neg hc]
          exact List.mem_cons_self _ _
      · exact List.mem_cons_of_mem _ (List.mem_cons_of_mem _ h)
    · intro x hx
      rcases List.mem_cons.mp hx with h2 | h2
      · rw [h2]
        exact le_trans hlea hstep_le_y
      · exact hall x h2

lemma argminList_mem {α : Type} {f : α → ℚ} {l : List α} {r : α}
    (h : argminList f l = some r) : r ∈ l := by
  cases l with
  | nil => cases h
  | cons a as =>
    have := (argminList_foldl_aux f as a).1
    rw [argminList] at h
    injection h with h
    exact h ▸ this

lemma argminList_le {α : Type} {f : α → ℚ} {l : List α} {r : α}
    (h : argminList f l = some r) : ∀ x ∈ l, f r ≤ f x := by
  cases l with
  | nil => cases h
  | cons a as =>
    obtain ⟨_, hlea, hall⟩ := argminList_foldl_aux f as a
    rw [argminList] at h
    injection h with h
    intro x hx
    rcases List.mem_cons.mp hx with h2 | h2
    · exact h ▸ h2 ▸ hlea
    · exact h ▸ hall x h2

lemma foldr_max_le_of_mem (l : List ℕ) (x : ℕ) (hx : x ∈ l) :
    x ≤ l.foldr max 0 := by
  induction l with
  | nil => cases hx
  | cons a as ih =>
    rcases List.mem_cons.mp hx with h | h
    · exact h ▸ le_max_left _ _
    · exact le_trans (ih h) (le_max_right _ _)

lemma closestAux_stops (xmin ymin R : ℚ) (pts : List Pose) (p : Pose)
    (k0 : ℕ) (hk0 : neighborsAtRing xmin ymin R pts p k0 ≠ [])
    (hmin : ∀ m < k0, neighborsAtRing xmin ymin R pts p m = []) :
    ∀ fuel count, count ≤ k0 → k0 < count + fuel →
      closestAux xmin ymin R pts p fuel count =
        argminList (fun q => euclidSq p q)
          (neighborsAtRing xmin ymin R pts p k0) := by
  intro fuel
  induction fuel with
  | zero => intro count h1 h2; omega
  | succ f ih =>
    intro count h1 h2
    by_cases hc : count = k0
    · subst hc
      rw [closestAux]
      cases harg : argminList (fun q => euclidSq p q)
          (neighborsAtRing xmin ymin R pts p count) with
      | some r => rfl
      | none => exact absurd ((argminList_eq_none _ _).mp harg) hk0
    · have hlt : count < k0 := lt_of_le_of_ne h1 hc
      rw [closestAux, hmin count hlt]
      exact ih (count + 1) (by omega) (by omega)

/-- Claim C5: whenever the grid hash stores at least one pose, the
expanding-ring search `_closest_tree_pt` terminates and returns a pose
stored in the grid hash; the returned pose is gathered at the first count
whose ring is nonempty (all earlier rings are empty) and minimises the 2D
Euclidean distance to the query among the poses of that ring. -/
theorem closest_tree_pt_spec (xmin ymin R : ℚ) (pts : List Pose) (p : Pose)
    (hne : pts ≠ []) :
    ∃ (k : ℕ) (r : Pose),
      closest_tree_pt xmin ymin R pts p = some r ∧ r ∈ pts ∧
      (∀ m < k, neighborsAtRing xmin ymin R pts p m = []) ∧
      r ∈ neighborsAtRing xmin ymin R pts p k ∧
      ∀ q ∈ neighborsAtRing xmin ymin R pts p k,
        euclidSq p r ≤ euclidSq p q := by
  obtain ⟨q0, hq0⟩ := List.exists_mem_of_ne_nil pts hne
  have hP : ∃ k, neighborsAtRing xmin ymin R pts p k ≠ [] :=
    ⟨chebRadius xmin ymin R p q0,
     List.ne_nil_of_mem (mem_neighborsAtRing_cheb xmin ymin R pts p q0 hq0)⟩
  classical
  have hk0 := Nat.find_spec hP
  have hmin : ∀ m < Nat.find hP, neighborsAtRing xmin ymin R pts p m = [] :=
    fun m hm => not_not.mp (Nat.find_min hP hm)
  have hk0le : Nat.find hP ≤ chebRadius xmin ymin R p q0 :=
    Nat.find_le (List.ne_nil_of_mem (mem_neighborsAtRing_cheb xmin ymin R pts p q0 hq0))
  have hbound : chebRadius xmin ymin R p q0 ≤
      (pts.map (chebRadius xmin ymin R p)).foldr max 0 :=
    foldr_max_le_of_mem _ _ (List.mem_map_of_mem _ hq0)
  have hrun := closestAux_stops xmin ymin R pts p (Nat.find hP) hk0 hmin
    (1 + (pts.map (chebRadius xmin ymin R p)).foldr max 0) 0
    (by omega) (by omega)
  obtain ⟨r, hr⟩ : ∃ r, argminList (fun q => euclidSq p q)
      (neighborsAtRing xmin ymin R pts p (Nat.find hP)) = some r := by
    cases harg : argminList (fun q => euclidSq p q)
        (neighborsAtRing xmin ymin R pts p (Nat.find hP)) with
    | some r => exact ⟨r, rfl⟩
    | none => exact absurd ((argminList_eq_none _ _).mp harg) hk0
  refine ⟨Nat.find hP, r, ?_, neighborsAtRing_subset (argminList_mem hr),
    hmin, argminList_mem hr, argminList_le hr⟩
  rw [closest_tree_pt, hrun, hr]

def pW5 : Pose := ⟨0, 0, 0, 0⟩

def qW5 : Pose := ⟨3, 0, 0, 0⟩

/-- Evaluation of the nearest-point claim on a concrete single-pose hash. -/
theorem closest_tree_pt_spec_witness :
    ∃ (k : ℕ) (r : Pose),
      closest_tree_pt 0 0 1 [qW5] pW5 = some r ∧ r ∈ [qW5] ∧
      (∀ m < k, neighborsAtRing 0 0 1 [qW5] pW5 m = []) ∧
      r ∈ neighborsAtRing 0 0 1 [qW5] pW5 k ∧
      ∀ q ∈ neighborsAtRing 0 0 1 [qW5] pW5 k,
        euclidSq pW5 r ≤ euclidSq pW5 q :=
  closest_tree_pt_spec 0 0 1 [qW5] pW5 (by simp)

/-! ## The tree and the cost cache (`self.tree`, `self._cost_from_parent`) -/

/-- The tree `self.tree`: a Python dict from pose to optional parent pose,
embedded as its insertion-ordered entry list. -/
abbrev PTree := List (Pose × Option Pose)

/-- Dict read `tree.get(p)`: the value of the first entry with key `p`. -/
def lookupT (t : PTree) (p : Pose) : Option (Option Pose) :=
  (t.find? (fun e => decide (e.1 = p))).map (fun e => e.2)

/-- Dict store `tree[p] = v`: replace the value in place when the key is
present (keeping its position), else append a new entry. -/
def setT : PTree → Pose → Option Pose → PTree
  | [], p, v => [(p, v)]
  | e :: es, p, v => if e.1 = p then (e.1, v) :: es else e :: setT es p v

def keysT (t : PTree) : List Pose := t.map (fun e => e.1)

/-- The cost cache `self._cost_from_parent`, a dict from pose to cost. -/
abbrev Cache := List (Pose × ℚ)

def lookupC (c : Cache) (p : Pose) : Option ℚ :=
  (c.find? (fun e => decide (e.1 = p))).map (fun e => e.2)

def setC : Cache → Pose → ℚ → Cache
  | [], p, v => [(p, v)]
  | e :: es, p, v => if e.1 = p then (e.1, v) :: es else e :: setC es p v

lemma lookupT_setT_self (t : PTree) (p : Pose) (v : Option Pose) :
    lookupT (setT t p v) p = some v := by
  induction t with
  | nil => simp [setT, lookupT]
  | cons e es ih =>
    by_cases he : e.1 = p
    · simp [setT, he, lookupT]
    · simp only [setT, if_neg he]
      unfold lookupT at ih ⊢
      rw [List.find?_cons_of_neg _ (by simp [he])]
      exact ih

lemma lookupT_setT_ne (t : PTree) (p q : Pose) (v : Option Pose)
    (h : q ≠ p) : lookupT (setT t p v) q = lookupT t q := by
  induction t with
  | nil =>
    unfold setT lookupT
    rw [List.find?_cons_of_neg _ (by simpa using Ne.symm h)]
  | cons e es ih =>
    by_cases he : e.1 = p
    · have hq : ¬ e.1 = q := fun hh => h (hh.symm.trans he)
      simp only [setT, if_pos he]
      unfold lookupT
      rw [List.find?_cons_of_neg _ (by simp [hq]),
        List.find?_cons_of_neg _ (by simp [hq])]
    · simp only [setT, if_neg he]
      by_cases hq : e.1 = q
      · unfold lookupT
        rw [List.find?_cons_of_pos _ (by simp [hq]),
          List.find?_cons_of_pos _ (by simp [hq])]
      · unfold lookupT at ih ⊢
        rw [List.find?_cons_of_neg _ (by simp [hq]),
          List.find?_cons_of_neg _ (by simp [hq])]
        exact ih

lemma keysT_setT_mem (t : PTree) (p : Pose) (v : Option Pose)
    (h : p ∈ keysT t) : keysT (setT t p v) = keysT t := by
  induction t with
  | nil => cases h
  | cons e es ih =>
    by_cases he : e.1 = p
    · simp [setT, he, keysT]
    · have h2 : p ∈ keysT es := by
        rcases List.mem_cons.mp h with h2 | h2
        · exact absurd h2.symm he
        · exact h2
      simp only [setT, if_neg he, keysT, List.map_cons]
      rw [show (setT es p v).map (fun e => e.1) = keysT (setT es p v) from rfl,
        ih h2]
      rfl

lemma keysT_setT_not_mem (t : PTree) (p : Pose) (v : Option Pose)
    (h : p ∉ keysT t) : keysT (setT t p v) = keysT t ++ [p] := by
  induction t with
  | nil => simp [setT, keysT]
  | cons e es ih =>
    have he : ¬ e.1 = p := fun hh => h (by simp [keysT, hh])
    have h2 : p ∉ keysT es := fun hh => h (by simp [keysT] at hh ⊢; tauto)
    simp only [setT, if_neg he, keysT, List.map_cons]
    rw [show (setT es p v).map (fun e => e.1) = keysT (setT es p v) from rfl,
      ih h2]
    rfl

lemma length_setT_mem (t : PTree) (p : Pose) (v : Option Pose)
    (h : p ∈ keysT t) : (setT t p v).length = t.length := by
  induction t with
  | nil => cases h
  | cons e es ih =>
    by_cases he : e.1 = p
    · simp [setT, he]
    · have h2 : p ∈ keysT es := by
        rcases List.mem_cons.mp h with h2 | h2
        · exact absurd h2.symm he
        · exact h2
      simp [setT, if_neg he, ih h2]

lemma mem_setT (t : PTree) (p : Pose) (v : Option Pose) (e : Pose × Option Pose)
    (h : e ∈ setT t p v) : (e.1 = p ∧ e.2 = v) ∨ e ∈ t := by
  induction t with
  | nil =>
    simp [setT] at h
    exact Or.inl (by simp [h])
  | cons f es ih =>
    by_cases hf : f.1 = p
    · simp only [setT, if_pos hf] at h
      rcases List.mem_cons.mp h with h2 | h2
      · exact Or.inl (by simp [h2, hf])
      · exact Or.inr (List.mem_cons_of_mem _ h2)
    · simp only [setT, if_neg hf] at h
      rcases List.mem_cons.mp h with h2 | h2
      · exact Or.inr (h2 ▸ List.mem_cons_self _ _)
      · rcases ih h2 with h3 | h3
        · exact Or.inl h3
        · exact Or.inr (List.mem_cons_of_mem _ h3)

lemma lookupT_isSome_iff_mem (t : PTree) (p : Pose) :
    (lookupT t p).isSome ↔ p ∈ keysT t := by
  unfold lookupT keysT
  constructor
  · intro h
    obtain ⟨e, he⟩ := Option.isSome_iff_exists.mp h
    obtain ⟨f, hfind, hev⟩ := Option.map_eq_some'.mp he
    have hp := List.find?_some hfind
    simp only [decide_eq_true_eq] at hp
    exact hp ▸ List.mem_map_of_mem _ (List.mem_of_find?_eq_some hfind)
  · intro h
    obtain ⟨e, he, hp⟩ := List.mem_map.mp h
    have h2 : (t.find? (fun e => decide (e.1 = p))).isSome := by
      rw [List.find?_isSome]
      exact ⟨e, he, by simp [hp]⟩
    obtain ⟨f, hf⟩ := Option.isSome_iff_exists.mp h2
    rw [hf]
    rfl

lemma lookupT_mem (t : PTree) (p : Pose) (v : Option Pose)
    (h : lookupT t p = some v) : (p, v) ∈ t := by
  unfold lookupT at h
  obtain ⟨e, hfind, hev⟩ := Option.map_eq_some'.mp h
  have hp := List.find?_some hfind
  simp only [decide_eq_true_eq] at hp
  have := List.mem_of_find?_eq_some hfind
  rw [show (p, v) = e from by rw [← hp, ← hev], ← hp] at *
  exact this

lemma lookupC_setC_self (c : Cache) (p : Pose) (v : ℚ) :
    lookupC (setC c p v) p = some v := by
  induction c with
  | nil => simp [setC, lookupC]
  | cons e es ih =>
    by_cases he : e.1 = p
    · simp [setC, he, lookupC]
    · simp only [setC, if_neg he]
      unfold lookupC at ih ⊢
      rw [List.find?_cons_of_neg _ (by simp [he])]
      exact ih

lemma lookupC_setC_ne (c : Cache) (p q : Pose) (v : ℚ)
    (h : q ≠ p) : lookupC (setC c p v) q = lookupC c q := by
  induction c with
  | nil =>
    unfold setC lookupC
    rw [List.find?_cons_of_neg _ (by simpa using Ne.symm h)]
  | cons e es ih =>
    by_cases he : e.1 = p
    · have hq : ¬ e.1 = q := fun hh => h (hh.symm.trans he)
      simp only [setC, if_pos he]
      unfold lookupC
      rw [List.find?_cons_of_neg _ (by simp [hq]),
        List.find?_cons_of_neg _ (by simp [hq])]
    · simp only [setC, if_neg he]
      by_cases hq : e.1 = q
      · unfold lookupC
        rw [List.find?_cons_of_pos _ (by simp [hq]),
          List.find?_cons_of_pos _ (by simp [hq])]
      · unfold lookupC at ih ⊢
        rw [List.find?_cons_of_neg _ (by simp [hq]),
          List.find?_cons_of_neg _ (by simp [hq])]
        exact ih

lemma mem_setC (c : Cache) (p : Pose) (v : ℚ) (e : Pose × ℚ)
    (h : e ∈ setC c p v) : (e.1 = p ∧ e.2 = v) ∨ e ∈ c := by
  induction c with
  | nil =>
    simp [setC] at h
    exact Or.inl (by simp [h])
  | cons f es ih =>
    by_cases hf : f.1 = p
    · simp only [setC, if_pos hf] at h
      rcases List.mem_cons.mp h with h2 | h2
      · exact Or.inl (by simp [h2, hf])
      · exact Or.inr (List.mem_cons_of_mem _ h2)
    · simp only [setC, if_neg hf] at h
      rcases List.mem_cons.mp h with h2 | h2
      · exact Or.inr (h2 ▸ List.mem_cons_self _ _)
      · rcases ih h2 with h3 | h3
        · exact Or.inl h3
        · exact Or.inr (List.mem_cons_of_mem _ h3)

/-! ## Path to start (`_get_path_to_start`, lines 90-95) -/

/-- `_get_path_to_start`, with fuel: the source walks `tree[pt]` upward
until the start is reached and returns the path from the start down to the
argument.  A missing key or a None parent before the start would raise in
the source, and a cycle would loop forever; both are embedded as `none`.
The lemmas below show that fuel `t.length` suffices whenever the walk
terminates at all. -/
def pathToStart (t : PTree) (start : Pose) : ℕ → Pose → Option (List Pose)
  | 0, p => if p = start then some [p] else none
  | fuel + 1, p =>
    if p = start then some [p]
    else
      match lookupT t p with
      | some (some q) => (pathToStart t start fuel q).map (fun l => l ++ [p])
      | _ => none

lemma pathToStart_start (t : PTree) (start : Pose) (fuel : ℕ) :
    pathToStart t start fuel start = some [start] := by
  cases fuel <;> simp [pathToStart]

lemma pathToStart_zero {t : PTree} {start p : Pose} {l : List Pose}
    (h : pathToStart t start 0 p = some l) : p = start ∧ l = [start] := by
  by_cases hp : p = start
  · subst hp
    rw [pathToStart_start] at h
    exact ⟨rfl, (Option.some.inj h).symm⟩
  · rw [pathToStart, if_neg hp] at h
    cases h

lemma pathToStart_succ_ne {t : PTree} {start p : Pose} {fuel : ℕ}
    (hp : p ≠ start) :
    pathToStart t start (fuel + 1) p =
      match lookupT t p with
      | some (some q) => (pathToStart t start fuel q).map (fun l => l ++ [p])
      | _ => none := by
  rw [pathToStart, if_neg hp]

lemma pathToStart_succ_parent {t : PTree} {start p q : Pose} {fuel : ℕ}
    (hp : p ≠ start) (hl : lookupT t p = some (some q)) :
    pathToStart t start (fuel + 1) p =
      (pathToStart t start fuel q).map (fun l => l ++ [p]) := by
  rw [pathToStart_succ_ne hp, hl]

lemma pathToStart_mono (t : PTree) (start : Pose) :
    ∀ fuel p l, pathToStart t start fuel p = some l →
      ∀ f2, fuel ≤ f2 → pathToStart t start f2 p = some l := by
  intro fuel
  induction fuel with
  | zero =>
    intro p l h f2 _
    obtain ⟨hp, hl⟩ := pathToStart_zero h
    subst hl
    rw [hp]
    exact pathToStart_start t start f2
  | succ f ih =>
    intro p l h f2 hf2
    by_cases hp : p = start
    · rw [hp] at h ⊢
      rw [pathToStart_start] at h
      rw [← Option.some.inj h]
      exact pathToStart_start t start f2
    · cases f2 with
      | zero => omega
      | succ f2 =>
        rw [pathToStart_succ_ne hp] at h
        cases hlk : lookupT t p with
        | none => rw [hlk] at h; cases h
        | some vo =>
          cases vo with
          | none => rw [hlk] at h; cases h
          | some q =>
            rw [hlk] at h
            obtain ⟨l0, h0, hl0⟩ := Option.map_eq_some'.mp h
            rw [pathToStart_succ_parent hp hlk, ih q l0 h0 f2 (by omega), ← hl0]
            rfl

lemma pathToStart_det {t : PTree} {start p : Pose} {f g : ℕ}
    {l l2 : List Pose} (h1 : pathToStart t start f p = some l)
    (h2 : pathToStart t start g p = some l2) : l = l2 := by
  rcases le_total f g with h | h
  · have := pathToStart_mono t start f p l h1 g h
    rw [this] at h2
    exact Option.some.inj h2
  · have := pathToStart_mono t start g p l2 h2 f h
    rw [this] at h1
    exact (Option.some.inj h1).symm

lemma pathToStart_shape (t : PTree) (start : Pose) :
    ∀ fuel p l, pathToStart t start fuel p = some l →
      l ≠ [] ∧ l.getLast? = some p := by
  intro fuel
  induction fuel with
  | zero =>
    intro p l h
    obtain ⟨hp, hl⟩ := pathToStart_zero h
    subst hp
    subst hl
    exact ⟨by simp, by simp⟩
  | succ f ih =>
    intro p l h
    by_cases hp : p = start
    · subst hp
      rw [pathToStart_start] at h
      rw [← Option.some.inj h]
      exact ⟨by simp, by simp⟩
    · rw [pathToStart_succ_ne hp] at h
      cases hlk : lookupT t p with
      | none => rw [hlk] at h; cases h
      | some vo =>
        cases vo with
        | none => rw [hlk] at h; cases h
        | some q =>
          rw [hlk] at h
          obtain ⟨l0, _, hl0⟩ := Option.map_eq_some'.mp h
          subst hl0
          exact ⟨by simp, by simp⟩

lemma pathToStart_mem_keys (t : PTree) (start : Pose)
    (hstart : start ∈ keysT t) :
    ∀ fuel p l, pathToStart t start fuel p = some l →
      ∀ y ∈ l, y ∈ keysT t := by
  intro fuel
  induction fuel with
  | zero =>
    intro p l h y hy
    obtain ⟨hp, hl⟩ := pathToStart_zero h
    subst hl
    rw [List.mem_singleton.mp hy]
    exact hstart
  | succ f ih =>
    intro p l h y hy
    by_cases hp : p = start
    · subst hp
      rw [pathToStart_start] at h
      rw [← Option.some.inj h] at hy
      rw [List.mem_singleton.mp hy]
      exact hstart
    · rw [pathToStart_succ_ne hp] at h
      cases hlk : lookupT t p with
      | none => rw [hlk] at h; cases h
      | some vo =>
        cases vo with
        | none => rw [hlk] at h; cases h
        | some q =>
          rw [hlk] at h
          obtain ⟨l0, h0, hl0⟩ := Option.map_eq_some'.mp h
          subst hl0
          rcases List.mem_append.mp hy with h2 | h2
          · exact ih q l0 h0 y h2
          · rw [List.mem_singleton.mp h2]
            exact (lookupT_isSome_iff_mem t p).mp (by rw [hlk]; rfl)

lemma pathToStart_member_prefix (t : PTree) (start : Pose) :
    ∀ fuel p l, pathToStart t start fuel p = some l →
      ∀ y ∈ l, ∃ g ≤ fuel, ∃ ly, pathToStart t start g y = some ly ∧
        ly.IsPrefix l := by
  intro fuel
  induction fuel with
  | zero =>
    intro p l h y hy
    obtain ⟨hp, hl⟩ := pathToStart_zero h
    subst hl
    rw [List.mem_singleton.mp hy]
    exact ⟨0, le_refl _, [start], pathToStart_start t start 0, List.prefix_refl _⟩
  | succ f ih =>
    intro p l h y hy
    by_cases hp : p = start
    · rw [hp, pathToStart_start] at h
      rw [← Option.some.inj h] at hy
      rw [List.mem_singleton.mp hy]
      refine ⟨f + 1, le_refl _, [start], pathToStart_start t start _, ?_⟩
      rw [← Option.some.inj h]
    · rw [pathToStart_succ_ne hp] at h
      cases hlk : lookupT t p with
      | none => rw [hlk] at h; cases h
      | some vo =>
        cases vo with
        | none => rw [hlk] at h; cases h
        | some q =>
          rw [hlk] at h
          obtain ⟨l0, h0, hl0⟩ := Option.map_eq_some'.mp h
          subst hl0
          rcases List.mem_append.mp hy with h2 | h2
          · obtain ⟨g, hg, ly, hly, hpre⟩ := ih q l0 h0 y h2
            exact ⟨g, by omega, ly, hly,
              hpre.trans (l0.prefix_append [p])⟩
          · rw [List.mem_singleton.mp h2]
            exact ⟨f + 1, le_refl _, l0 ++ [p],
              by rw [pathToStart_succ_parent hp hlk, h0]; rfl,
              List.prefix_refl _⟩

lemma pathToStart_nodup (t : PTree) (start : Pose) :
    ∀ fuel p l, pathToStart t start fuel p = some l → l.Nodup := by
  intro fuel
  induction fuel with
  | zero =>
    intro p l h
    rw [(pathToStart_zero h).2]
    simp
  | succ f ih =>
    intro p l h
    by_cases hp : p = start
    · subst hp
      rw [pathToStart_start] at h
      rw [← Option.some.inj h]
      simp
    · rw [pathToStart_succ_ne hp] at h
      cases hlk : lookupT t p with
      | none => rw [hlk] at h; cases h
      | some vo =>
        cases vo with
        | none => rw [hlk] at h; cases h
        | some q =>
          rw [hlk] at h
          obtain ⟨l0, h0, hl0⟩ := Option.map_eq_some'.mp h
          subst hl0
          have hnd := ih q l0 h0
          have hpn : p ∉ l0 := by
            intro hmem
            obtain ⟨g, hg, lp, hlp, hpre⟩ :=
              pathToStart_member_prefix t start f q l0 h0 p hmem
            have hfull : pathToStart t start (f + 1) p = some (l0 ++ [p]) := by
              rw [pathToStart_succ_parent hp hlk, h0]
              rfl
            have heq : lp = l0 ++ [p] := pathToStart_det hlp hfull
            have hlen := hpre.length_le
            rw [heq, List.length_append] at hlen
            simp at hlen
          rw [List.nodup_append]
          exact ⟨hnd, by simp, by simpa using hpn⟩

lemma pathToStart_fuel_of_length (t : PTree) (start : Pose) :
    ∀ fuel p l, pathToStart t start fuel p = some l →
      ∀ g, l.length ≤ g + 1 → pathToStart t start g p = some l := by
  intro fuel
  induction fuel with
  | zero =>
    intro p l h g _
    obtain ⟨hp, hl⟩ := pathToStart_zero h
    subst hl
    rw [hp]
    exact pathToStart_start t start g
  | succ f ih =>
    intro p l h g hlen
    by_cases hp : p = start
    · rw [hp] at h ⊢
      rw [pathToStart_start] at h
      rw [← Option.some.inj h]
      exact pathToStart_start t start g
    · rw [pathToStart_succ_ne hp] at h
      cases hlk : lookupT t p with
      | none => rw [hlk] at h; cases h
      | some vo =>
        cases vo with
        | none => rw [hlk] at h; cases h
        | some q =>
          rw [hlk] at h
          obtain ⟨l0, h0, hl0⟩ := Option.map_eq_some'.mp h
          subst hl0
          have hl0ne : l0 ≠ [] := (pathToStart_shape t start f q l0 h0).1
          have hl0len : 1 ≤ l0.length := by
            cases l0 with
            | nil => exact absurd rfl hl0ne
            | cons a as => simp
          rw [List.length_append] at hlen
          simp only [List.length_singleton] at hlen
          cases g with
          | zero => omega
          | succ g0 =>
            rw [pathToStart_succ_parent hp hlk,
              ih q l0 h0 g0 (by omega)]
            rfl

lemma nodup_subset_length {l m : List Pose} (hn : l.Nodup)
    (hs : ∀ y ∈ l, y ∈ m) : l.length ≤ m.length := by
  classical
  calc l.length = l.toFinset.card := (List.toFinset_card_of_nodup hn).symm
    _ ≤ m.toFinset.card :=
        Finset.card_le_card
          (fun x hx => List.mem_toFinset.mpr (hs x (List.mem_toFinset.mp hx)))
    _ ≤ m.length := m.toFinset_card_le

lemma pathToStart_norm (t : PTree) (start : Pose) (hstart : start ∈ keysT t)
    {fuel : ℕ} {p : Pose} {l : List Pose}
    (h : pathToStart t start fuel p = some l) :
    pathToStart t start t.length p = some l := by
  have hnd := pathToStart_nodup t start fuel p l h
  have hmem := pathToStart_mem_keys t start hstart fuel p l h
  have hlen : l.length ≤ t.length := by
    have := nodup_subset_length hnd hmem
    rwa [keysT, List.length_map] at this
  exact pathToStart_fuel_of_length t start fuel p l h t.length (by omega)

lemma pathToStart_stable (t : PTree) (start newp : Pose) (v : Option Pose) :
    ∀ fuel q l, pathToStart t start fuel q = some l → newp ∉ l →
      pathToStart (setT t newp v) start fuel q = some l := by
  intro fuel
  induction fuel with
  | zero =>
    intro q l h _
    obtain ⟨hq, hl⟩ := pathToStart_zero h
    subst hl
    rw [hq]
    exact pathToStart_start _ start 0
  | succ f ih =>
    intro q l h hnotin
    by_cases hq : q = start
    · rw [hq] at h ⊢
      rw [pathToStart_start] at h
      rw [← Option.some.inj h]
      exact pathToStart_start _ start _
    · rw [pathToStart_succ_ne hq] at h
      cases hlk : lookupT t q with
      | none => rw [hlk] at h; cases h
      | some vo =>
        cases vo with
        | none => rw [hlk] at h; cases h
        | some r =>
          rw [hlk] at h
          obtain ⟨l0, h0, hl0⟩ := Option.map_eq_some'.mp h
          subst hl0
          have hqne : q ≠ newp := by
            intro hh
            exact hnotin (hh ▸ List.mem_append_right l0 (List.mem_singleton.mpr rfl))
          have hlk2 : lookupT (setT t newp v) q = some (some r) := by
            rw [lookupT_setT_ne t newp q v hqne]
            exact hlk
          have hnotin0 : newp ∉ l0 := fun hh =>
            hnotin (List.mem_append_left _ hh)
          rw [pathToStart_succ_parent hq hlk2, ih r l0 h0 hnotin0]
          rfl

lemma pathToStart_extend (t : PTree) (start q r : Pose) (fuel : ℕ)
    (l : List Pose) (hq : q ≠ start) (hlk : lookupT t q = some (some r))
    (h : pathToStart t start fuel r = some l) :
    pathToStart t start (fuel + 1) q = some (l ++ [q]) := by
  rw [pathToStart_succ_parent hq hlk, h]
  rfl

/-! ## Cost from start (`_cost_from_start`, lines 171-180) -/

/-- The per-edge value used by `_cost_from_start`: the cached
`_cost_from_parent[child]` when present, else
`_cost_from_to(parent, child, consider_end_heading=True)`.  The source also
writes the computed value into the cache, which leaves the returned total
unchanged.  `_cost_from_to` comes from the cost-model mixins
(rrt_shortest / rrt_pointturn / rrt_unicycle), which are not under src/, so
it is a parameter here. -/
def edgeVal (cache : Cache) (cost : Pose → Pose → ℚ) (parent child : Pose) : ℚ :=
  (lookupC cache child).getD (cost parent child)

/-- Sum of `f parent child` over the consecutive pairs of a path: the
source's `zip(path[:-1], path[1:])` accumulation loop. -/
def chainSum (f : Pose → Pose → ℚ) : List Pose → ℚ
  | p :: q :: rest => f p q + chainSum f (q :: rest)
  | _ => 0

/-- `RRTStarBase._cost_from_start`: walk the parent chain to the root and
sum the cached or freshly computed edge costs. -/
def cost_from_start (t : PTree) (start : Pose) (cache : Cache)
    (cost : Pose → Pose → ℚ) (p : Pose) : Option ℚ :=
  (pathToStart t start t.length p).map (chainSum (edgeVal cache cost))

/-- The tree invariant of claim C1: the start is present and mapped to
None, no other pose maps to None, and every key's parent chain reaches the
start (within `t.length` steps, which the path lemmas show is no
restriction). -/
def treeInv (t : PTree) (start : Pose) : Prop :=
  lookupT t start = some none ∧
  (∀ e ∈ t, e.2 = none → e.1 = start) ∧
  ∀ e ∈ t, (pathToStart t start t.length e.1).isSome

def keysNodup (t : PTree) : Prop := (keysT t).Nodup

instance treeInvDecidable (t : PTree) (start : Pose) :
    Decidable (treeInv t start) := by
  unfold treeInv
  infer_instance

instance keysNodupDecidable (t : PTree) : Decidable (keysNodup t) := by
  unfold keysNodup
  infer_instance

lemma length_setT_not_mem (t : PTree) (p : Pose) (v : Option Pose)
    (h : p ∉ keysT t) : (setT t p v).length = t.length + 1 := by
  induction t with
  | nil => simp [setT]
  | cons e es ih =>
    have he : ¬ e.1 = p := fun hh => h (by simp [keysT, hh])
    have h2 : p ∉ keysT es := fun hh => h (by simp [keysT] at hh ⊢; tauto)
    simp [setT, if_neg he, ih h2]

lemma lookupC_mem (c : Cache) (p : Pose) (v : ℚ)
    (h : lookupC c p = some v) : (p, v) ∈ c := by
  unfold lookupC at h
  obtain ⟨e, hfind, hev⟩ := Option.map_eq_some'.mp h
  have hp := List.find?_some hfind
  simp only [decide_eq_true_eq] at hp
  have := List.mem_of_find?_eq_some hfind
  rw [show (p, v) = e from by rw [← hp, ← hev]]
  exact this

lemma edgeVal_nonneg (cache : Cache) (cost : Pose → Pose → ℚ)
    (hcache : ∀ e ∈ cache, 0 ≤ e.2) (hcost : ∀ a b, 0 ≤ cost a b)
    (a b : Pose) : 0 ≤ edgeVal cache cost a b := by
  unfold edgeVal
  cases h : lookupC cache b with
  | none => exact hcost a b
  | some v => exact hcache (b, v) (lookupC_mem cache b v h)

lemma chainSum_concat (f : Pose → Pose → ℚ) :
    ∀ (l : List Pose) (q b : Pose), l.getLast? = some q →
      chainSum f (l ++ [b]) = chainSum f l + f q b := by
  intro l
  induction l with
  | nil => intro q b h; cases h
  | cons a as ih =>
    intro q b h
    cases as with
    | nil =>
      have haq : a = q := by simpa using h
      subst haq
      show f a b + chainSum f [b] = chainSum f [a] + f a b
      simp [chainSum]
    | cons c cs =>
      have h2 : (c :: cs).getLast? = some q := by
        rwa [List.getLast?_cons_cons] at h
      show f a c + chainSum f ((c :: cs) ++ [b]) =
        f a c + chainSum f (c :: cs) + f q b
      rw [ih q b h2]
      ring

lemma chainSum_split (f : Pose → Pose → ℚ) :
    ∀ (l1 : List Pose) (q c : Pose) (l2 : List Pose), l1.getLast? = some q →
      chainSum f (l1 ++ c :: l2) =
        chainSum f l1 + f q c + chainSum f (c :: l2) := by
  intro l1
  induction l1 with
  | nil => intro q c l2 h; cases h
  | cons a as ih =>
    intro q c l2 h
    cases as with
    | nil =>
      have haq : a = q := by simpa using h
      subst haq
      show f a c + chainSum f (c :: l2) =
        chainSum f [a] + f a c + chainSum f (c :: l2)
      simp [chainSum]
    | cons d ds =>
      have h2 : (d :: ds).getLast? = some q := by
        rwa [List.getLast?_cons_cons] at h
      show f a d + chainSum f ((d :: ds) ++ c :: l2) =
        f a d + chainSum f (d :: ds) + f q c + chainSum f (c :: l2)
      rw [ih q c l2 h2]
      ring

lemma chainSum_congr (f g : Pose → Pose → ℚ) :
    ∀ l : List Pose, (∀ a b, a ∈ l → b ∈ l → f a b = g a b) →
      chainSum f l = chainSum g l := by
  intro l
  induction l with
  | nil => intro _; rfl
  | cons a as ih =>
    intro h
    cases as with
    | nil => rfl
    | cons b bs =>
      show f a b + chainSum f (b :: bs) = g a b + chainSum g (b :: bs)
      rw [h a b (by simp) (by simp),
        ih (fun x y hx hy =>
          h x y (List.mem_cons_of_mem _ hx) (List.mem_cons_of_mem _ hy))]

lemma chainSum_nonneg (f : Pose → Pose → ℚ) (hf : ∀ a b, 0 ≤ f a b) :
    ∀ l : List Pose, 0 ≤ chainSum f l := by
  intro l
  induction l with
  | nil => exact le_refl 0
  | cons a as ih =>
    cases as with
    | nil => exact le_refl 0
    | cons b bs =>
      show 0 ≤ f a b + chainSum f (b :: bs)
      have := hf a b
      have := ih
      linarith

lemma chainSum_prefix_le (f : Pose → Pose → ℚ) (hf : ∀ a b, 0 ≤ f a b)
    (l1 l2 : List Pose) (h : l1.IsPrefix l2) :
    chainSum f l1 ≤ chainSum f l2 := by
  obtain ⟨rest, rfl⟩ := h
  cases l1 with
  | nil => simpa [chainSum] using chainSum_nonneg f hf rest
  | cons a as =>
    cases rest with
    | nil => simp
    | cons c cs =>
      cases hq : (a :: as).getLast? with
      | none => simp at hq
      | some q =>
        rw [chainSum_split f (a :: as) q c cs hq]
        have h1 := hf q c
        have h2 := chainSum_nonneg f hf (c :: cs)
        linarith

/-- Inserting a genuinely fresh pose with a parent already in the tree
preserves the tree invariant and key distinctness. -/
lemma insert_preserves_inv (t : PTree) (start r parent : Pose)
    (hnd : keysNodup t) (hinv : treeInv t start) (hfresh : r ∉ keysT t)
    (hparent : parent ∈ keysT t) :
    treeInv (setT t r (some parent)) start ∧
    keysNodup (setT t r (some parent)) := by
  obtain ⟨hroot, huniq, hreach⟩ := hinv
  have hstartmem : start ∈ keysT t :=
    (lookupT_isSome_iff_mem t start).mp (by rw [hroot]; rfl)
  have hsr : start ≠ r := fun hh => hfresh (hh ▸ hstartmem)
  have hkeys2 : keysT (setT t r (some parent)) = keysT t ++ [r] :=
    keysT_setT_not_mem t r (some parent) hfresh
  have hlen2 : (setT t r (some parent)).length = t.length + 1 :=
    length_setT_not_mem t r (some parent) hfresh
  have hpath2 : ∀ q ∈ keysT t,
      (pathToStart (setT t r (some parent)) start
        (setT t r (some parent)).length q).isSome := by
    intro q hq
    obtain ⟨e, he, hee⟩ := List.mem_map.mp hq
    have hsome := hreach e he
    obtain ⟨lq, hlq⟩ := Option.isSome_iff_exists.mp hsome
    rw [hee] at hlq
    have hrout : r ∉ lq := fun hmem =>
      hfresh (pathToStart_mem_keys t start hstartmem t.length q lq hlq r hmem)
    have hst := pathToStart_stable t start r (some parent) t.length q lq hlq hrout
    have := pathToStart_mono _ start t.length q lq hst
      (setT t r (some parent)).length (by omega)
    rw [this]
    rfl
  refine ⟨⟨?_, ?_, ?_⟩, ?_⟩
  · rw [lookupT_setT_ne t r start (some parent) hsr]
    exact hroot
  · intro e he hnone
    rcases mem_setT t r (some parent) e he with ⟨_, h2⟩ | h2
    · rw [h2] at hnone
      cases hnone
    · exact huniq e h2 hnone
  · intro e he
    rcases mem_setT t r (some parent) e he with ⟨h1, h2⟩ | h2
    · rw [h1]
      obtain ⟨ep, hep, hepe⟩ := List.mem_map.mp hparent
      have hsomep := hreach ep hep
      obtain ⟨lp, hlp⟩ := Option.isSome_iff_exists.mp hsomep
      rw [hepe] at hlp
      have hrout : r ∉ lp := fun hmem =>
        hfresh (pathToStart_mem_keys t start hstartmem t.length parent lp hlp r hmem)
      have hst := pathToStart_stable t start r (some parent) t.length parent lp hlp hrout
      have hlkr : lookupT (setT t r (some parent)) r = some (some parent) :=
        lookupT_setT_self t r (some parent)
      have hrs : r ≠ start := fun hh => hsr hh.symm
      have hext := pathToStart_extend (setT t r (some parent)) start r parent
        t.length lp hrs hlkr hst
      rw [hlen2, hext]
      rfl
    · exact hpath2 e.1 (List.mem_map_of_mem _ h2)
  · unfold keysNodup
    rw [hkeys2, List.nodup_append]
    exact ⟨hnd, by simp, by simpa using hfresh⟩

lemma mem_of_getLast? {l : List Pose} {a : Pose}
    (h : l.getLast? = some a) : a ∈ l := by
  induction l with
  | nil => cases h
  | cons x xs ih =>
    cases xs with
    | nil =>
      have : x = a := by simpa using h
      simp [this]
    | cons y ys =>
      rw [List.getLast?_cons_cons] at h
      exact List.mem_cons_of_mem _ (ih h)

/-- Rerouting: if the walk from `q` in the old tree passes through `p`, and
a new tree agrees with the old one away from `p` while giving `p` a new
path `lnew`, then the walk from `q` in the new tree is `lnew` followed by
the old segment from `p` to `q`. -/
lemma pathToStart_reroute (t t2 : PTree) (start p : Pose)
    (lp lnew : List Pose) (hpstart : p ≠ start)
    (hlp : pathToStart t start t.length p = some lp)
    (hagree : ∀ y, y ≠ p → lookupT t2 y = lookupT t y)
    (F0 : ℕ) (hlnew : pathToStart t2 start F0 p = some lnew) :
    ∀ fuel q l, pathToStart t start fuel q = some l → p ∈ l →
      ∃ rest, l = lp ++ rest ∧
        pathToStart t2 start (F0 + rest.length) q = some (lnew ++ rest) := by
  intro fuel
  induction fuel with
  | zero =>
    intro q l h hpin
    obtain ⟨hq, hl⟩ := pathToStart_zero h
    subst hl
    exact absurd (List.mem_singleton.mp hpin) hpstart
  | succ f ih =>
    intro q l h hpin
    by_cases hq : q = start
    · rw [hq, pathToStart_start] at h
      rw [← Option.some.inj h] at hpin
      exact absurd (List.mem_singleton.mp hpin) hpstart
    · by_cases hqp : q = p
      · have hdet : l = lp := pathToStart_det (hqp ▸ h) hlp
        refine ⟨[], by simp [hdet], ?_⟩
        simp only [List.length_nil, Nat.add_zero, List.append_nil]
        rw [hqp]
        exact hlnew
      · rw [pathToStart_succ_ne hq] at h
        cases hlk : lookupT t q with
        | none => rw [hlk] at h; cases h
        | some vo =>
          cases vo with
          | none => rw [hlk] at h; cases h
          | some r =>
            rw [hlk] at h
            obtain ⟨l0, h0, hl0⟩ := Option.map_eq_some'.mp h
            subst hl0
            have hpin0 : p ∈ l0 := by
              rcases List.mem_append.mp hpin with h2 | h2
              · exact h2
              · exact absurd (List.mem_singleton.mp h2).symm hqp
            obtain ⟨rest0, hrest0, hnew0⟩ := ih r l0 h0 hpin0
            have hlk2 : lookupT t2 q = some (some r) := by
              rw [hagree q hqp]
              exact hlk
            have hext := pathToStart_extend t2 start q r (F0 + rest0.length)
              (lnew ++ rest0) hq hlk2 hnew0
            refine ⟨rest0 ++ [q], by rw [hrest0, List.append_assoc], ?_⟩
            rw [List.length_append, List.length_singleton,
              ← List.append_assoc,
              show F0 + (rest0.length + 1) = F0 + rest0.length + 1 from rfl]
            exact hext

/-- The heart of claims C1 (rewiring part) and C3: a rewiring step whose
guard holds, on a well-formed tree with nonnegative cached and computed
edge costs, preserves the tree invariant and key distinctness and does not
increase any node's cost from start. -/
lemma rewire_analysis
    (t : PTree) (start : Pose) (cache : Cache) (cost : Pose → Pose → ℚ)
    (rand p : Pose) (cr cp : ℚ)
    (hnd : keysNodup t) (hinv : treeInv t start)
    (hcache : ∀ e ∈ cache, 0 ≤ e.2) (hcost : ∀ a b, 0 ≤ cost a b)
    (hp : p ∈ keysT t) (hpstart : p ≠ start)
    (hcr : cost_from_start t start cache cost rand = some cr)
    (hcp : cost_from_start t start cache cost p = some cp)
    (hguard : cr + cost rand p < cp) :
    treeInv (setT t p (some rand)) start ∧
    keysNodup (setT t p (some rand)) ∧
    ∀ q ∈ keysT t,
      ∃ cq2 cq : ℚ,
        cost_from_start (setT t p (some rand)) start
          (setC cache p (cost rand p)) cost q = some cq2 ∧
        cost_from_start t start cache cost q = some cq ∧ cq2 ≤ cq := by
  obtain ⟨hroot, huniq, hreach⟩ := hinv
  have hf : ∀ a b, 0 ≤ edgeVal cache cost a b :=
    edgeVal_nonneg cache cost hcache hcost
  have hstartmem : start ∈ keysT t :=
    (lookupT_isSome_iff_mem t start).mp (by rw [hroot]; rfl)
  obtain ⟨lr, hlr, hlrsum⟩ := Option.map_eq_some'.mp hcr
  obtain ⟨lp, hlp, hlpsum⟩ := Option.map_eq_some'.mp hcp
  have hplr : p ∉ lr := by
    intro hmem
    obtain ⟨g, hg, lp2, hlp2, hpre⟩ :=
      pathToStart_member_prefix t start t.length rand lr hlr p hmem
    have heq : lp2 = lp := pathToStart_det hlp2 hlp
    rw [heq] at hpre
    have hle := chainSum_prefix_le (edgeVal cache cost) hf lp lr hpre
    rw [hlrsum, hlpsum] at hle
    have := hcost rand p
    linarith
  have hlen2 : (setT t p (some rand)).length = t.length :=
    length_setT_mem t p (some rand) hp
  have hkeys2 : keysT (setT t p (some rand)) = keysT t :=
    keysT_setT_mem t p (some rand) hp
  have hnd2 : keysNodup (setT t p (some rand)) := by
    unfold keysNodup
    rw [hkeys2]
    exact hnd
  have hstart2 : start ∈ keysT (setT t p (some rand)) := by
    rw [hkeys2]
    exact hstartmem
  have hf2_ne : ∀ a b, b ≠ p →
      edgeVal (setC cache p (cost rand p)) cost a b = edgeVal cache cost a b := by
    intro a b hb
    unfold edgeVal
    rw [lookupC_setC_ne cache p b (cost rand p) hb]
  have hf2_p : ∀ a, edgeVal (setC cache p (cost rand p)) cost a p =
      cost rand p := by
    intro a
    unfold edgeVal
    rw [lookupC_setC_self]
    rfl
  have hf2 : ∀ a b, 0 ≤ edgeVal (setC cache p (cost rand p)) cost a b := by
    apply edgeVal_nonneg
    · intro e he
      rcases mem_setC cache p (cost rand p) e he with ⟨_, h2⟩ | h2
      · rw [h2]
        exact hcost rand p
      · exact hcache e h2
    · exact hcost
  have hlr2 : pathToStart (setT t p (some rand)) start t.length rand = some lr :=
    pathToStart_stable t start p (some rand) t.length rand lr hlr hplr
  have hlr_last : lr.getLast? = some rand :=
    (pathToStart_shape t start t.length rand lr hlr).2
  have hlkp2 : lookupT (setT t p (some rand)) p = some (some rand) :=
    lookupT_setT_self t p (some rand)
  have hlp2new : pathToStart (setT t p (some rand)) start (t.length + 1) p =
      some (lr ++ [p]) :=
    pathToStart_extend (setT t p (some rand)) start p rand t.length lr
      hpstart hlkp2 hlr2
  have hnewp_sum : chainSum (edgeVal (setC cache p (cost rand p)) cost)
      (lr ++ [p]) = cr + cost rand p := by
    rw [chainSum_concat _ lr rand p hlr_last]
    have hcongr : chainSum (edgeVal (setC cache p (cost rand p)) cost) lr =
        chainSum (edgeVal cache cost) lr :=
      chainSum_congr _ _ lr
        (fun a b _ hb => hf2_ne a b (fun hbp => hplr (hbp ▸ hb)))
    rw [hcongr, hlrsum, hf2_p]
  have hagree : ∀ y, y ≠ p →
      lookupT (setT t p (some rand)) y = lookupT t y := fun y hy =>
    lookupT_setT_ne t p y (some rand) hy
  have hmain : ∀ q ∈ keysT t,
      ∃ cq2 cq : ℚ,
        cost_from_start (setT t p (some rand)) start
          (setC cache p (cost rand p)) cost q = some cq2 ∧
        cost_from_start t start cache cost q = some cq ∧ cq2 ≤ cq := by
    intro q hq
    obtain ⟨e, he, hee⟩ := List.mem_map.mp hq
    obtain ⟨lq, hlq⟩ := Option.isSome_iff_exists.mp (hreach e he)
    rw [hee] at hlq
    by_cases hpq : p ∈ lq
    · obtain ⟨rest, hrest, hnewq⟩ :=
        pathToStart_reroute t (setT t p (some rand)) start p lp (lr ++ [p])
          hpstart hlp hagree (t.length + 1) hlp2new t.length q lq hlq hpq
      have hnewq_norm : pathToStart (setT t p (some rand)) start
          (setT t p (some rand)).length q = some ((lr ++ [p]) ++ rest) :=
        pathToStart_norm (setT t p (some rand)) start hstart2 hnewq
      have hnodupq : lq.Nodup := pathToStart_nodup t start t.length q lq hlq
      have hplp : p ∈ lp :=
        mem_of_getLast? (pathToStart_shape t start t.length p lp hlp).2
      have hprest : p ∉ rest := by
        rw [hrest] at hnodupq
        exact (List.nodup_append.mp hnodupq).2.2 hplp
      cases rest with
      | nil =>
        have hqp : q = p := by
          rw [hrest, List.append_nil] at hlq
          have h1 := (pathToStart_shape t start t.length q lp hlq).2
          have h2 := (pathToStart_shape t start t.length p lp hlp).2
          rw [h1] at h2
          exact Option.some.inj h2
        refine ⟨cr + cost rand p, cp, ?_, ?_, le_of_lt hguard⟩
        · unfold cost_from_start
          rw [hnewq_norm]
          simp only [List.append_nil, Option.map_some']
          rw [hnewp_sum]
        · rw [hqp]
          exact hcp
      | cons c cs =>
        have hlp_last : lp.getLast? = some p :=
          (pathToStart_shape t start t.length p lp hlp).2
        have hold_sum : chainSum (edgeVal cache cost) lq =
            chainSum (edgeVal cache cost) lp + edgeVal cache cost p c +
              chainSum (edgeVal cache cost) (c :: cs) := by
          rw [hrest]
          exact chainSum_split _ lp p c cs hlp_last
        have hnew_last : (lr ++ [p]).getLast? = some p := by simp
        have hnew_sum : chainSum (edgeVal (setC cache p (cost rand p)) cost)
            ((lr ++ [p]) ++ c :: cs) =
            chainSum (edgeVal (setC cache p (cost rand p)) cost) (lr ++ [p]) +
              edgeVal (setC cache p (cost rand p)) cost p c +
              chainSum (edgeVal (setC cache p (cost rand p)) cost) (c :: cs) :=
          chainSum_split _ (lr ++ [p]) p c cs hnew_last
        have hcne : c ≠ p := fun hh => hprest (hh ▸ List.mem_cons_self c cs)
        have hseq : chainSum (edgeVal (setC cache p (cost rand p)) cost) (c :: cs) =
            chainSum (edgeVal cache cost) (c :: cs) :=
          chainSum_congr _ _ (c :: cs)
            (fun a b _ hb => hf2_ne a b (fun hbp => hprest (hbp ▸ hb)))
        refine ⟨chainSum (edgeVal (setC cache p (cost rand p)) cost)
            (lr ++ [p] ++ c :: cs), chainSum (edgeVal cache cost) lq,
          ?_, ?_, ?_⟩
        · unfold cost_from_start
          rw [hnewq_norm]
          rfl
        · unfold cost_from_start
          rw [hlq]
          rfl
        · rw [hnew_sum, hnewp_sum, hf2_ne p c hcne, hseq, hold_sum, hlpsum]
          have h1 := chainSum_nonneg _ hf (c :: cs)
          linarith
    · have hst : pathToStart (setT t p (some rand)) start t.length q = some lq :=
        pathToStart_stable t start p (some rand) t.length q lq hlq hpq
      have hstn : pathToStart (setT t p (some rand)) start
          (setT t p (some rand)).length q = some lq := by
        rw [hlen2]
        exact hst
      have hsame : chainSum (edgeVal (setC cache p (cost rand p)) cost) lq =
          chainSum (edgeVal cache cost) lq :=
        chainSum_congr _ _ lq
          (fun a b _ hb => hf2_ne a b (fun hbp => hpq (hbp ▸ hb)))
      refine ⟨chainSum (edgeVal (setC cache p (cost rand p)) cost) lq,
        chainSum (edgeVal cache cost) lq, ?_, ?_, le_of_eq hsame⟩
      · unfold cost_from_start
        rw [hstn]
        rfl
      · unfold cost_from_start
        rw [hlq]
        rfl
  refine ⟨⟨?_, ?_, ?_⟩, hnd2, hmain⟩
  · rw [lookupT_setT_ne t p start (some rand) (fun hh => hpstart hh.symm)]
    exact hroot
  · intro e he hnone
    rcases mem_setT t p (some rand) e he with ⟨_, h2⟩ | h2
    · rw [h2] at hnone
      cases hnone
    · exact huniq e h2 hnone
  · intro e he
    have hq : e.1 ∈ keysT t := by
      rw [← hkeys2]
      exact List.mem_map_of_mem _ he
    obtain ⟨cq2, cq, hcq2, _, _⟩ := hmain e.1 hq
    unfold cost_from_start at hcq2
    obtain ⟨l2, hl2, _⟩ := Option.map_eq_some'.mp hcq2
    rw [hl2]
    rfl

/-! ## The insertion and rewiring steps of `generate_tree`
(lines 439-494) -/

/-- The neighbor filter building `nearby_nodes` (lines 439-448): poses from
`_get_near_pts` within the near threshold (squared comparison), not at the
same planar (x, y) position, and connected by the motion primitive.
`_path_exists` is a method of the cost-model mixins, not under src/, so it
is a Bool-valued parameter. -/
def nearbyNodesOf (xmin ymin R : ℚ) (pts : List Pose)
    (pathExistsB : Pose → Pose → Bool) (rand : Pose) : List Pose :=
  (get_near_pts xmin ymin R pts rand).filter fun pt =>
    decide (euclidSq rand pt < R ^ 2) &&
    !(decide ((rand.x, rand.y) = (pt.x, pt.y))) && pathExistsB pt rand

/-- The best-parent scan (lines 453-468): Python strict-minimum tracking of
the key over the enumerated nearby nodes, keeping the first index on ties. -/
def selectAux (key : Pose → ℚ) : List Pose → ℕ → ℕ → ℚ → ℕ
  | [], _, bi, _ => bi
  | x :: xs, i, bi, bv =>
    if key x < bv then selectAux key xs (i + 1) i (key x)
    else selectAux key xs (i + 1) bi bv

def selectBestIdx (key : Pose → ℚ) : List Pose → Option ℕ
  | [] => none
  | a :: as => some (selectAux key as 1 0 (key a))

/-- Lines 470-478: `rand_pt.heading = best_final_heading`, then
`tree[rand_pt] = nearby_nodes.pop(best_parent_idx)` and the cache and grid
updates.  The dict store overwrites silently when the post-heading pose key
already names a tree node.  Returns the new tree, the new cache, and the
stored pose. -/
def insertNewNode (t : PTree) (cache : Cache) (rand : Pose)
    (finalHeading : ℚ) (parent : Pose) (edgeCost : ℚ) :
    PTree × Cache × Pose :=
  (setT t { rand with heading := finalHeading } (some parent),
   setC cache { rand with heading := finalHeading } edgeCost,
   { rand with heading := finalHeading })

/-- One guarded iteration of the rewire loop (lines 483-494):
`tree[pt] = rand_pt` and `_cost_from_parent[pt] = cost_from_new_pt`. -/
def rewireStep (t : PTree) (cache : Cache) (rand p : Pose)
    (costFromNewPt : ℚ) : PTree × Cache :=
  (setT t p (some rand), setC cache p costFromNewPt)

def c1S : Pose := ⟨0, 0, 0, 0⟩

def c1P : Pose := ⟨1, 0, 0, 0⟩

def c1rand : Pose := ⟨0, 0, 0, 1⟩

def c1t0 : PTree := [(c1S, none), (c1P, some c1S)]

def c1cache : Cache := [(c1S, 0), (c1P, 1)]

/-- Claim C1 fails as stated: from the legal two-node state with start
(0,0,0,0) and child (1,0,0,0), a sampled pose at the start's planar
position passes every code guard (the same-position filter only removes it
from the candidate parents), and after the best final heading 0 is
assigned, the dict store `tree[rand_pt] = parent` silently overwrites the
start's entry: afterwards no pose maps to None and the parent chain from
the start is the cycle start -> child -> start, so both invariant clauses
are broken right after a node insertion. -/
theorem tree_invariant_counterexample :
    treeInv c1t0 c1S ∧ keysNodup c1t0 ∧
    nearbyNodesOf 0 0 2 [c1S, c1P] (fun _ _ => true) c1rand = [c1P] ∧
    selectBestIdx (fun pt =>
      (cost_from_start c1t0 c1S c1cache (fun _ _ => 1) pt).getD 0 + 1)
      [c1P] = some 0 ∧
    (insertNewNode c1t0 c1cache c1rand 0 c1P 1).2.2 = c1S ∧
    ¬ treeInv (insertNewNode c1t0 c1cache c1rand 0 c1P 1).1 c1S := by
  refine ⟨by decide, by decide, ?_, rfl, by decide, by decide⟩
  have hnear : get_near_pts 0 0 2 [c1S, c1P] c1rand = [c1S, c1P] := by
    norm_num [get_near_pts, bucket, cellOf, cellIndex, qmod, c1S, c1P,
      c1rand, List.filter]
    decide
  unfold nearbyNodesOf
  rw [hnear]
  norm_num [List.filter, euclidSq, c1S, c1P, c1rand]
  decide

/-- Claim C1, amended: the invariants survive every step the planner
actually performs provided the inserted pose (after its heading is
assigned) is not already a tree key - the code does not guard against that
key collision, and a colliding insertion can break both invariants.  In
detail: inserting a fresh pose under a parent already in the tree preserves
"exactly one None parent (the start)" and "every parent chain reaches the
start", and so does every rewiring step whose strict cost guard holds,
given that all cached and computed edge costs are nonnegative. -/
theorem tree_invariant_amended :
    (∀ (t : PTree) (cache : Cache) (start rand : Pose) (finalHeading : ℚ)
        (parent : Pose) (edgeCost : ℚ),
      keysNodup t → treeInv t start →
      ({ rand with heading := finalHeading } : Pose) ∉ keysT t →
      parent ∈ keysT t →
      treeInv (insertNewNode t cache rand finalHeading parent edgeCost).1 start ∧
      keysNodup (insertNewNode t cache rand finalHeading parent edgeCost).1) ∧
    (∀ (t : PTree) (cache : Cache) (cost : Pose → Pose → ℚ)
        (start rand p : Pose) (cr cp : ℚ),
      keysNodup t → treeInv t start →
      (∀ e ∈ cache, 0 ≤ e.2) → (∀ a b, 0 ≤ cost a b) →
      p ∈ keysT t → p ≠ start →
      cost_from_start t start cache cost rand = some cr →
      cost_from_start t start cache cost p = some cp →
      cr + cost rand p < cp →
      treeInv (rewireStep t cache rand p (cost rand p)).1 start ∧
      keysNodup (rewireStep t cache rand p (cost rand p)).1) := by
  constructor
  · intro t cache start rand fh parent ec hnd hinv hfresh hparent
    exact insert_preserves_inv t start _ parent hnd hinv hfresh hparent
  · intro t cache cost start rand p cr cp hnd hinv hcache hcost hp hpstart
      hcr hcp hguard
    obtain ⟨h1, h2, _⟩ := rewire_analysis t start cache cost rand p cr cp
      hnd hinv hcache hcost hp hpstart hcr hcp hguard
    exact ⟨h1, h2⟩

def wS : Pose := ⟨0, 0, 0, 0⟩

def wA : Pose := ⟨1, 0, 0, 0⟩

def wB : Pose := ⟨2, 0, 0, 0⟩

def wT : PTree := [(wS, none), (wA, some wS), (wB, some wA)]

def wCache : Cache := [(wS, 0), (wA, 1), (wB, 5)]

def wCost : Pose → Pose → ℚ := fun _ _ => 1

/-- Evaluation of the amended invariant claim on a concrete three-node
tree: a fresh insertion under parent (1,0,0,0), and a rewiring of
(2,0,0,0) under (1,0,0,0) whose guard 1 + 1 < 6 holds. -/
theorem tree_invariant_amended_witness :
    (treeInv (insertNewNode wT wCache ⟨3, 0, 0, 1⟩ 0 wA 1).1 wS ∧
      keysNodup (insertNewNode wT wCache ⟨3, 0, 0, 1⟩ 0 wA 1).1) ∧
    (treeInv (rewireStep wT wCache wA wB (wCost wA wB)).1 wS ∧
      keysNodup (rewireStep wT wCache wA wB (wCost wA wB)).1) := by
  constructor
  · exact tree_invariant_amended.1 wT wCache wS ⟨3, 0, 0, 1⟩ 0 wA 1
      (by decide) (by decide) (by decide) (by decide)
  · refine tree_invariant_amended.2 wT wCache wCost wS wA wB
      (chainSum (edgeVal wCache wCost) [wS, wA])
      (chainSum (edgeVal wCache wCost) [wS, wA, wB])
      (by decide) (by decide) (by decide)
      (by intro a b; norm_num [wCost]) (by decide) (by decide) rfl rfl ?_
    have c1 : chainSum (edgeVal wCache wCost) [wS, wA] = 1 + 0 := rfl
    have c2 : chainSum (edgeVal wCache wCost) [wS, wA, wB] = 1 + (5 + 0) := rfl
    rw [c1, c2]
    norm_num [wCost]

/-- Claim C3: a single rewiring step whose guard holds (the new route cost
is strictly below the current cost from start) never increases any tree
node's cost from start, given nonnegative cached and computed edge costs
on a well-formed tree. -/
theorem rewire_cost_monotone (t : PTree) (cache : Cache)
    (cost : Pose → Pose → ℚ) (start rand p : Pose) (cr cp : ℚ)
    (hnd : keysNodup t) (hinv : treeInv t start)
    (hcache : ∀ e ∈ cache, 0 ≤ e.2) (hcost : ∀ a b, 0 ≤ cost a b)
    (hp : p ∈ keysT t) (hpstart : p ≠ start)
    (hcr : cost_from_start t start cache cost rand = some cr)
    (hcp : cost_from_start t start cache cost p = some cp)
    (hguard : cr + cost rand p < cp) :
    ∀ q ∈ keysT t,
      ∃ cq2 cq : ℚ,
        cost_from_start (rewireStep t cache rand p (cost rand p)).1 start
          (rewireStep t cache rand p (cost rand p)).2 cost q = some cq2 ∧
        cost_from_start t start cache cost q = some cq ∧ cq2 ≤ cq :=
  (rewire_analysis t start cache cost rand p cr cp hnd hinv hcache hcost
    hp hpstart hcr hcp hguard).2.2

/-- Evaluation of the rewiring monotonicity claim at the concrete node
(2,0,0,0) of the three-node tree. -/
theorem rewire_cost_monotone_witness :
    ∃ cq2 cq : ℚ,
      cost_from_start (rewireStep wT wCache wA wB (wCost wA wB)).1 wS
        (rewireStep wT wCache wA wB (wCost wA wB)).2 wCost wB = some cq2 ∧
      cost_from_start wT wS wCache wCost wB = some cq ∧ cq2 ≤ cq := by
  refine rewire_cost_monotone wT wCache wCost wS wA wB
    (chainSum (edgeVal wCache wCost) [wS, wA])
    (chainSum (edgeVal wCache wCost) [wS, wA, wB])
    (by decide) (by decide) (by decide)
    (by intro a b; norm_num [wCost]) (by decide) (by decide) rfl rfl ?_ wB
    (by decide)
  have c1 : chainSum (edgeVal wCache wCost) [wS, wA] = 1 + 0 := rfl
  have c2 : chainSum (edgeVal wCache wCost) [wS, wA, wB] = 1 + (5 + 0) := rfl
  rw [c1, c2]
  norm_num [wCost]

/-! ## Checkpointing (`_string_tree` lines 254-284,
`_load_tree_from_json` lines 182-226) -/

/-- The planner state touched by checkpoint load: `_start`, `_goal`,
`tree`, the grid hash insertion list, `_best_goal_node` and
`_start_iteration`. -/
structure PState where
  start : Option Pose
  goal : Option Pose
  tree : PTree
  gridPts : List Pose
  best_goal_node : Option Pose
  start_iteration : ℕ
deriving DecidableEq

/-- The checkpoint document.  Pose keys are serialized strings of the form
x_y_z_heading; modelled from the spec: `PointHeading._str_key` lives in
algo/utils.py, which is not under src/, and per the spec pose-to-key is
injective with key-to-pose (`_str_to_pt`) its inverse, so keys are
represented by the poses themselves, with `none` for the empty string. -/
structure STree where
  start : Pose
  goal : Pose
  best_goal_node : Option Pose
  best_cost : ℚ
  best_path_raw : List Pose
  graph : List (Pose × Option Pose)
deriving DecidableEq

/-- `_get_best_path`: empty when no best goal node, else the parent chain
of the best goal node followed by the goal. -/
def get_best_path (t : PTree) (start goal : Pose) (bgn : Option Pose) :
    List Pose :=
  match bgn with
  | none => []
  | some b => (pathToStart t start t.length b).getD [] ++ [goal]

/-- `_string_tree`: serialize the tree; the root entry maps to the empty
parent key.  The best-cost number (cost from start of the best goal node
plus its cost to the goal, computed by the cost mixins) is passed as a
function of the best goal node; it is -1 when there is no best goal
node. -/
def string_tree (t : PTree) (start goal : Pose) (bgn : Option Pose)
    (bestCost : Pose → ℚ) : STree :=
  { start := start
    goal := goal
    best_goal_node := bgn
    best_cost := match bgn with | some b => bestCost b | none => -1
    best_path_raw := get_best_path t start goal bgn
    graph := t.map (fun e => if e.1 = start then (e.1, none) else e) }

/-- One iteration of the graph loop of `_load_tree_from_json`: record the
best goal node when the key matches, skip the root entry (empty parent),
otherwise store the parent (the planner's own start object when the parent
key is the start key) and append to the grid hash. -/
def applyGraphStep (startKey actualStart : Pose) (bgnKey : Option Pose)
    (k : Pose) (v : Option Pose) (st : PState) : PState :=
  let st1 := if bgnKey = some k then { st with best_goal_node := some k } else st
  match v with
  | none => st1
  | some vp =>
    { st1 with
      tree := setT st1.tree k (some (if vp = startKey then actualStart else vp)),
      gridPts := st1.gridPts ++ [k] }

def applyGraph (startKey actualStart : Pose) (bgnKey : Option Pose) :
    List (Pose × Option Pose) → PState → PState
  | [], st => st
  | (k, v) :: rest, st =>
    applyGraph startKey actualStart bgnKey rest
      (applyGraphStep startKey actualStart bgnKey k v st)

/-- `_load_tree_from_json` applied to an already parsed document: set the
start and goal if absent, fold the graph, and resume the iteration counter
at the file-name prefix plus one. -/
def load_tree_from_doc (doc : STree) (fileIter : ℕ) (st : PState) : PState :=
  let s := st.start.getD doc.start
  let g := st.goal.getD doc.goal
  let st1 : PState := { st with start := some s, goal := some g }
  let st2 := applyGraph doc.start s doc.best_goal_node doc.graph st1
  { st2 with start_iteration := fileIter + 1 }

/-- `_load_tree_from_json` around the file boundary: `none` models the
branch with no json_path and no existing checkpoint files (the early
`return None`, state untouched); `some (Except.error e)` models a file
whose `json.load` or field access raises - the source has no try/except,
so the exception propagates; `some (Except.ok doc)` is a parsed file. -/
def load_tree_from_json (file : Option (Except String STree)) (fileIter : ℕ)
    (st : PState) : Except String PState :=
  match file with
  | none => Except.ok st
  | some (Except.error e) => Except.error e
  | some (Except.ok doc) => Except.ok (load_tree_from_doc doc fileIter st)

/-- A freshly constructed planner (`__init__`, lines 76-85). -/
def freshPState : PState := ⟨none, none, [], [], none, 0⟩

lemma applyGraphStep_start (sk as : Pose) (bk : Option Pose) (k : Pose)
    (v : Option Pose) (st : PState) :
    (applyGraphStep sk as bk k v st).start = st.start := by
  cases v <;> by_cases hbk : bk = some k <;> simp [applyGraphStep, hbk]

lemma applyGraphStep_goal (sk as : Pose) (bk : Option Pose) (k : Pose)
    (v : Option Pose) (st : PState) :
    (applyGraphStep sk as bk k v st).goal = st.goal := by
  cases v <;> by_cases hbk : bk = some k <;> simp [applyGraphStep, hbk]

lemma applyGraphStep_tree_none (sk as : Pose) (bk : Option Pose) (k : Pose)
    (st : PState) : (applyGraphStep sk as bk k none st).tree = st.tree := by
  by_cases hbk : bk = some k <;> simp [applyGraphStep, hbk]

lemma applyGraphStep_tree_some (sk as : Pose) (bk : Option Pose) (k vp : Pose)
    (st : PState) :
    (applyGraphStep sk as bk k (some vp) st).tree =
      setT st.tree k (some (if vp = sk then as else vp)) := by
  by_cases hbk : bk = some k <;> simp [applyGraphStep, hbk]

lemma applyGraphStep_bgn (sk as : Pose) (bk : Option Pose) (k : Pose)
    (v : Option Pose) (st : PState) :
    (applyGraphStep sk as bk k v st).best_goal_node =
      if bk = some k then some k else st.best_goal_node := by
  cases v <;> by_cases hbk : bk = some k <;> simp [applyGraphStep, hbk]

lemma applyGraph_start (sk as : Pose) (bk : Option Pose) :
    ∀ (es : List (Pose × Option Pose)) (st : PState),
      (applyGraph sk as bk es st).start = st.start := by
  intro es
  induction es with
  | nil => intro st; rfl
  | cons e rest ih =>
    intro st
    obtain ⟨k, v⟩ := e
    rw [show applyGraph sk as bk ((k, v) :: rest) st =
      applyGraph sk as bk rest (applyGraphStep sk as bk k v st) from rfl]
    rw [ih, applyGraphStep_start]

lemma applyGraph_goal (sk as : Pose) (bk : Option Pose) :
    ∀ (es : List (Pose × Option Pose)) (st : PState),
      (applyGraph sk as bk es st).goal = st.goal := by
  intro es
  induction es with
  | nil => intro st; rfl
  | cons e rest ih =>
    intro st
    obtain ⟨k, v⟩ := e
    rw [show applyGraph sk as bk ((k, v) :: rest) st =
      applyGraph sk as bk rest (applyGraphStep sk as bk k v st) from rfl]
    rw [ih, applyGraphStep_goal]

lemma applyGraph_bgn_none (sk as : Pose) :
    ∀ (es : List (Pose × Option Pose)) (st : PState),
      (applyGraph sk as none es st).best_goal_node = st.best_goal_node := by
  intro es
  induction es with
  | nil => intro st; rfl
  | cons e rest ih =>
    intro st
    obtain ⟨k, v⟩ := e
    rw [show applyGraph sk as none ((k, v) :: rest) st =
      applyGraph sk as none rest (applyGraphStep sk as none k v st) from rfl]
    rw [ih, applyGraphStep_bgn]
    simp

lemma applyGraph_bgn_not_mem (sk as : Pose) (b : Pose) :
    ∀ (es : List (Pose × Option Pose)) (st : PState),
      b ∉ es.map (fun e => e.1) →
      (applyGraph sk as (some b) es st).best_goal_node = st.best_goal_node := by
  intro es
  induction es with
  | nil => intro st _; rfl
  | cons e rest ih =>
    intro st hb
    obtain ⟨k, v⟩ := e
    have hbk : b ≠ k := fun hh => hb (by simp [hh])
    have hb2 : b ∉ rest.map (fun e => e.1) := fun hh => hb (by simp [hh])
    rw [show applyGraph sk as (some b) ((k, v) :: rest) st =
      applyGraph sk as (some b) rest (applyGraphStep sk as (some b) k v st)
      from rfl]
    rw [ih _ hb2, applyGraphStep_bgn]
    simp [hbk]

lemma applyGraph_bgn_mem (sk as : Pose) (b : Pose) :
    ∀ (es : List (Pose × Option Pose)) (st : PState),
      b ∈ es.map (fun e => e.1) →
      (applyGraph sk as (some b) es st).best_goal_node = some b := by
  intro es
  induction es with
  | nil => intro st hb; cases hb
  | cons e rest ih =>
    intro st hb
    obtain ⟨k, v⟩ := e
    rw [show applyGraph sk as (some b) ((k, v) :: rest) st =
      applyGraph sk as (some b) rest (applyGraphStep sk as (some b) k v st)
      from rfl]
    by_cases hmem : b ∈ rest.map (fun e => e.1)
    · exact ih _ hmem
    · have hbk : b = k := by
        rcases List.mem_map.mp hb with ⟨e2, he2, hee⟩
        rcases List.mem_cons.mp he2 with h2 | h2
        · rw [← hee, h2]
        · exact absurd (hee ▸ List.mem_map_of_mem _ h2) hmem
      rw [applyGraph_bgn_not_mem sk as b rest _ hmem, applyGraphStep_bgn]
      simp [hbk]

lemma setT_not_mem (t : PTree) (p : Pose) (v : Option Pose)
    (h : p ∉ keysT t) : setT t p v = t ++ [(p, v)] := by
  induction t with
  | nil => rfl
  | cons e es ih =>
    have he : ¬ e.1 = p := fun hh => h (by simp [keysT, hh])
    have h2 : p ∉ keysT es := fun hh => h (by simp [keysT] at hh ⊢; tauto)
    simp [setT, if_neg he, ih h2]

lemma applyGraph_tree (sk as : Pose) (bk : Option Pose) :
    ∀ (es : List (Pose × Option Pose)) (st : PState),
      (∀ k ∈ es.map (fun e => e.1), k ∉ keysT st.tree) →
      (es.map (fun e => e.1)).Nodup →
      (applyGraph sk as bk es st).tree =
        st.tree ++ es.filterMap (fun e =>
          e.2.map (fun vp => (e.1, some (if vp = sk then as else vp)))) := by
  intro es
  induction es with
  | nil => intro st _ _; simp [applyGraph]
  | cons e rest ih =>
    intro st hfresh hnd
    obtain ⟨k, v⟩ := e
    have hndtail : (rest.map (fun e => e.1)).Nodup :=
      (List.nodup_cons.mp (by simpa using hnd)).2
    have hknotrest : k ∉ rest.map (fun e => e.1) :=
      (List.nodup_cons.mp (by simpa using hnd)).1
    rw [show applyGraph sk as bk ((k, v) :: rest) st =
      applyGraph sk as bk rest (applyGraphStep sk as bk k v st) from rfl]
    cases v with
    | none =>
      have hfresh2 : ∀ k2 ∈ rest.map (fun e => e.1),
          k2 ∉ keysT (applyGraphStep sk as bk k none st).tree := by
        rw [applyGraphStep_tree_none]
        exact fun k2 hk2 => hfresh k2 (List.mem_cons_of_mem _ hk2)
      rw [ih _ hfresh2 hndtail, applyGraphStep_tree_none]
      simp [List.filterMap_cons]
    | some vp =>
      have hkfresh : k ∉ keysT st.tree := hfresh k (by simp)
      have htree : (applyGraphStep sk as bk k (some vp) st).tree =
          st.tree ++ [(k, some (if vp = sk then as else vp))] := by
        rw [applyGraphStep_tree_some]
        exact setT_not_mem st.tree k _ hkfresh
      have hfresh2 : ∀ k2 ∈ rest.map (fun e => e.1),
          k2 ∉ keysT (applyGraphStep sk as bk k (some vp) st).tree := by
        intro k2 hk2
        rw [htree]
        unfold keysT
        rw [List.map_append]
        intro hin
        rcases List.mem_append.mp hin with hin2 | hin2
        · exact hfresh k2 (List.mem_cons_of_mem _ hk2) hin2
        · have hk2k : k2 = k := by simpa using hin2
          exact hknotrest (hk2k ▸ hk2)
      rw [ih _ hfresh2 hndtail, htree, List.filterMap_cons]
      simp

lemma string_tree_graph_keys (t : PTree) (s g : Pose) (bgn : Option Pose)
    (bestCost : Pose → ℚ) :
    (string_tree t s g bgn bestCost).graph.map (fun e => e.1) = keysT t := by
  unfold string_tree keysT
  simp only [List.map_map]
  apply List.map_congr_left
  intro e _
  by_cases he : e.1 = s <;> simp [he]

lemma graph_filterMap (s : Pose) :
    ∀ t : PTree, (∀ e ∈ t, e.1 ≠ s → e.2.isSome) →
      (t.map (fun e => if e.1 = s then (e.1, (none : Option Pose)) else e)).filterMap
        (fun e => e.2.map (fun vp => (e.1, some (if vp = s then s else vp)))) =
      t.filter (fun e => decide (¬ e.1 = s)) := by
  intro t
  induction t with
  | nil => intro _; rfl
  | cons e rest ih =>
    intro hsome
    have ihr := ih (fun e2 he2 => hsome e2 (List.mem_cons_of_mem _ he2))
    by_cases hes : e.1 = s
    · rw [List.map_cons, if_pos hes, List.filterMap_cons]
      simp only [Option.map_none']
      rw [ihr, List.filter_cons]
      simp [hes]
    · have hv := hsome e (List.mem_cons_self _ _) hes
      obtain ⟨vp, hvp⟩ := Option.isSome_iff_exists.mp hv
      have hifvp : (if vp = s then s else vp) = vp := by
        by_cases h : vp = s
        · rw [if_pos h, h]
        · rw [if_neg h]
      rw [List.map_cons, if_neg hes, List.filterMap_cons, hvp]
      simp only [Option.map_some']
      rw [ihr, List.filter_cons, hifvp, ← hvp]
      simp [hes]

def c7S : Pose := ⟨0, 0, 0, 0⟩

def c7A : Pose := ⟨1, 0, 0, 0⟩

def c7G : Pose := ⟨2, 0, 0, 0⟩

def c7t : PTree := [(c7S, none), (c7A, some c7S)]

/-- Claim C7 fails as stated: serializing the two-node tree with root
(0,0,0,0) to a document and reloading it into a fresh planner does not
reconstruct the same child-to-parent mapping - the loader's `continue`
branch skips the root entry, so the reloaded tree lacks the root's None
entry that the original tree has. -/
theorem checkpoint_roundtrip_counterexample :
    lookupT c7t c7S = some none ∧
    (load_tree_from_doc (string_tree c7t c7S c7G none (fun _ => 0)) 0
      freshPState).tree ≠ c7t := by
  constructor
  · rfl
  · decide

/-- Claim C7, amended: the write-then-read round trip into a fresh planner
reconstructs the start pose, the goal pose and the best goal node exactly,
and reconstructs the child-to-parent graph on all non-root nodes; the
root's None entry itself is not restored (the loader skips it, and
`generate_tree` re-creates `tree[start] = None` before loading). -/
theorem checkpoint_roundtrip_amended (t : PTree) (s g : Pose)
    (bgn : Option Pose) (bestCost : Pose → ℚ) (fileIter : ℕ)
    (hnd : keysNodup t)
    (hsome : ∀ e ∈ t, e.1 ≠ s → e.2.isSome)
    (hbgn : bgn = none ∨ ∃ b, bgn = some b ∧ b ∈ keysT t) :
    (load_tree_from_doc (string_tree t s g bgn bestCost) fileIter
      freshPState).start = some s ∧
    (load_tree_from_doc (string_tree t s g bgn bestCost) fileIter
      freshPState).goal = some g ∧
    (load_tree_from_doc (string_tree t s g bgn bestCost) fileIter
      freshPState).best_goal_node = bgn ∧
    (load_tree_from_doc (string_tree t s g bgn bestCost) fileIter
      freshPState).tree = t.filter (fun e => decide (¬ e.1 = s)) := by
  have hkeys := string_tree_graph_keys t s g bgn bestCost
  refine ⟨?_, ?_, ?_, ?_⟩
  · show (applyGraph s s bgn (string_tree t s g bgn bestCost).graph
      ⟨some s, some g, [], [], none, 0⟩).start = some s
    rw [applyGraph_start]
  · show (applyGraph s s bgn (string_tree t s g bgn bestCost).graph
      ⟨some s, some g, [], [], none, 0⟩).goal = some g
    rw [applyGraph_goal]
  · show (applyGraph s s bgn (string_tree t s g bgn bestCost).graph
      ⟨some s, some g, [], [], none, 0⟩).best_goal_node = bgn
    rcases hbgn with hb | ⟨b, hb, hbmem⟩
    · rw [hb, applyGraph_bgn_none]
    · rw [hb]
      exact applyGraph_bgn_mem s s b _ _
        (by rw [string_tree_graph_keys]; exact hbmem)
  · show (applyGraph s s bgn (string_tree t s g bgn bestCost).graph
      ⟨some s, some g, [], [], none, 0⟩).tree =
      t.filter (fun e => decide (¬ e.1 = s))
    rw [applyGraph_tree s s bgn _ _
      (by rw [hkeys]; intro k _ hk; cases hk)
      (by rw [hkeys]; exact hnd), List.nil_append]
    exact graph_filterMap s t hsome

/-- Evaluation of the amended checkpoint claim on a concrete two-node tree
with best goal node (1,0,0,0). -/
theorem checkpoint_roundtrip_amended_witness :
    (load_tree_from_doc (string_tree c7t c7S c7G (some c7A) (fun _ => 0)) 4
      freshPState).start = some c7S ∧
    (load_tree_from_doc (string_tree c7t c7S c7G (some c7A) (fun _ => 0)) 4
      freshPState).goal = some c7G ∧
    (load_tree_from_doc (string_tree c7t c7S c7G (some c7A) (fun _ => 0)) 4
      freshPState).best_goal_node = some c7A ∧
    (load_tree_from_doc (string_tree c7t c7S c7G (some c7A) (fun _ => 0)) 4
      freshPState).tree = c7t.filter (fun e => decide (¬ e.1 = c7S)) :=
  checkpoint_roundtrip_amended c7t c7S c7G (some c7A) (fun _ => 0) 4
    (by decide) (by decide) (Or.inr ⟨c7A, rfl, by decide⟩)

/-- Claim C8 fails as stated: a checkpoint file whose parse raises does not
lead to a from-scratch start - `_load_tree_from_json` contains no handler,
so the exception propagates to the caller instead of being caught and
logged. -/
theorem load_failure_counterexample :
    load_tree_from_json (some (Except.error "Expecting value")) 3 freshPState =
      Except.error "Expecting value" ∧
    freshPState.start_iteration = 0 :=
  ⟨rfl, rfl⟩

/-- Claim C8, amended: only when no checkpoint file exists does the planner
proceed from scratch - the state is returned untouched, with the iteration
counter still at its initial value 0; a checkpoint that fails to parse
propagates the exception to the caller (nothing is caught or logged). -/
theorem load_failure_propagates_amended :
    (∀ (fileIter : ℕ) (st : PState),
      load_tree_from_json none fileIter st = Except.ok st) ∧
    (∀ (e : String) (fileIter : ℕ) (st : PState),
      load_tree_from_json (some (Except.error e)) fileIter st =
        Except.error e) ∧
    freshPState.start_iteration = 0 :=
  ⟨fun _ _ => rfl, fun _ _ _ => rfl, rfl⟩

end RRT
